import Mathlib

set_option maxHeartbeats 1000000

/-
Shallow embedding of `save_naver_blog_category_to_pdf.py`.

Modelling conventions:
* Python strings are `List Char`.
* Each regex used by the source is embedded as a dedicated leftmost-match
  scanner with the greedy/backtracking semantics of that concrete pattern.
  `\d` is modelled by `Char.isDigit` and `\w` by ASCII alphanumerics plus
  underscore; every input appearing in the theorems below only exercises the
  patterns on characters where this agrees with Python's semantics.
* `localtime().tm_year` is passed explicitly as a `curr : Nat` parameter.
* External effects (HTTP responses, the Selenium browser, the filesystem) are
  oracles passed as function arguments; the unbounded `while` loop of the
  enumerator takes explicit fuel and reports exhaustion as a distinct result.
-/

-- ===== character classes =====

def pyIsSpace (c : Char) : Bool :=
  c = ' ' || c = '\t' || c = '\n' || c = '\r' || c = '\x0b' || c = '\x0c'

def isPyLineBreak (c : Char) : Bool :=
  c = '\n' || c = '\r' || c = '\x0b' || c = '\x0c' || c = '\x1c' || c = '\x1d' ||
  c = '\x1e' || c = '\x85' || c = '\u2028' || c = '\u2029'

def pyStrip (s : List Char) : List Char :=
  ((s.dropWhile pyIsSpace).reverse.dropWhile pyIsSpace).reverse

def isSepChar (c : Char) : Bool := c = '.' || c = '-' || c = '/'

def isWordChar (c : Char) : Bool := c.isAlphanum || c = '_'

-- ===== decimal digit strings =====

def charVal (c : Char) : Nat := c.toNat - '0'.toNat

/-- Python `int(...)` on a digit string. -/
def charsToNat (s : List Char) : Nat := s.foldl (fun a c => 10 * a + charVal c) 0

def natToCharsAux : Nat → Nat → List Char
  | 0, _ => []
  | fuel + 1, n => if n = 0 then [] else natToCharsAux fuel (n / 10) ++ [Nat.digitChar (n % 10)]

/-- Python `str(...)` on a natural number. -/
def natToChars (n : Nat) : List Char := if n = 0 then ['0'] else natToCharsAux n n

def padLeftZeros (w : Nat) (s : List Char) : List Char :=
  List.replicate (w - s.length) '0' ++ s

/-- Python `f"{n:04d}"`. -/
def pad4 (n : Nat) : List Char := padLeftZeros 4 (natToChars n)

/-- Python `f"{n:02d}"`. -/
def pad2 (n : Nat) : List Char := padLeftZeros 2 (natToChars n)

/-- Python `f"{yi:04d}-{mi:02d}-{di:02d}"`. -/
def fmtYmd (y m d : Nat) : List Char := pad4 y ++ '-' :: pad2 m ++ '-' :: pad2 d

-- ===== regex scaffolding =====

/-- `\d{n}`: exactly `n` digits, returning them and the rest. -/
def takeDigitsN : Nat → List Char → Option (List Char × List Char)
  | 0, s => some ([], s)
  | _ + 1, [] => none
  | n + 1, c :: r =>
    if c.isDigit then
      match takeDigitsN n r with
      | some (ds, rest) => some (c :: ds, rest)
      | none => none
    else none

/-- Greedy `(\d{1,2})` followed by continuation `k`, with regex backtracking:
two digits are preferred, falling back to one digit when `k` fails. -/
def grab12 {α : Type} (k : List Char → Option α) : List Char → Option (List Char × α)
  | [] => none
  | [c1] =>
    if c1.isDigit then
      match k [] with
      | some a => some ([c1], a)
      | none => none
    else none
  | c1 :: c2 :: r =>
    if c1.isDigit then
      if c2.isDigit then
        match k r with
        | some a => some ([c1, c2], a)
        | none =>
          match k (c2 :: r) with
          | some a => some ([c1], a)
          | none => none
      else
        match k (c2 :: r) with
        | some a => some ([c1], a)
        | none => none
    else none

def skipWs (s : List Char) : List Char := s.dropWhile pyIsSpace

/-- One attempt of `(\d{4})[.\-\/](\d{1,2})[.\-\/](\d{1,2})` at the current position. -/
def matchP0At (s : List Char) : Option (List Char × List Char × List Char) :=
  match takeDigitsN 4 s with
  | none => none
  | some (yc, r1) =>
    match r1 with
    | [] => none
    | c :: r2 =>
      if isSepChar c then
        match grab12 (fun r =>
            match r with
            | c2 :: r3 => if isSepChar c2 then some r3 else none
            | [] => none) r2 with
        | none => none
        | some (mc, r3) =>
          match grab12 (fun r => some r) r3 with
          | none => none
          | some (dc, _) => some (yc, mc, dc)
      else none

/-- One attempt of `(\d{4})\s*년\s*(\d{1,2})\s*월\s*(\d{1,2})\s*일`. -/
def matchP1At (s : List Char) : Option (List Char × List Char × List Char) :=
  match takeDigitsN 4 s with
  | none => none
  | some (yc, r1) =>
    match skipWs r1 with
    | [] => none
    | c :: r2 =>
      if c = '년' then
        match grab12 (fun r =>
            match skipWs r with
            | c2 :: r3 => if c2 = '월' then some r3 else none
            | [] => none) (skipWs r2) with
        | none => none
        | some (mc, r3) =>
          match grab12 (fun r =>
              match skipWs r with
              | c2 :: r4 => if c2 = '일' then some r4 else none
              | [] => none) (skipWs r3) with
          | none => none
          | some (dc, _) => some (yc, mc, dc)
      else none

def boundaryBefore : Option Char → Bool
  | none => true
  | some c => !(isWordChar c)

def boundaryAfterOk : List Char → Bool
  | [] => true
  | c :: _ => !(isWordChar c)

/-- One attempt of `\b(\d{4})(\d{2})(\d{2})(\d{2})(\d{2})(\d{2})\b` (groups 1-3). -/
def matchP2At (prev : Option Char) (s : List Char) : Option (List Char × List Char × List Char) :=
  if boundaryBefore prev then
    match takeDigitsN 14 s with
    | some (ds, rest) =>
      if boundaryAfterOk rest then some (ds.take 4, (ds.drop 4).take 2, (ds.drop 6).take 2)
      else none
    | none => none
  else none

/-- One attempt of `\b(\d{4})(\d{2})(\d{2})\b`. -/
def matchP3At (prev : Option Char) (s : List Char) : Option (List Char × List Char × List Char) :=
  if boundaryBefore prev then
    match takeDigitsN 8 s with
    | some (ds, rest) =>
      if boundaryAfterOk rest then some (ds.take 4, (ds.drop 4).take 2, (ds.drop 6).take 2)
      else none
    | none => none
  else none

/-- Body of `MD_PATTERN = (?<!\d)(\d{1,2})\.(\d{1,2})\.(?!\d)` after the lookbehind. -/
def matchMDCore (s : List Char) : Option (List Char × List Char) :=
  match grab12 (fun r =>
      match r with
      | c :: r2 =>
        if c = '.' then
          grab12 (fun r3 =>
              match r3 with
              | c2 :: r4 =>
                if c2 = '.' then
                  match r4 with
                  | [] => some ()
                  | c3 :: _ => if c3.isDigit then none else some ()
                else none
              | [] => none) r2
        else none
      | [] => none) s with
  | some (mc, (dc, _)) => some (mc, dc)
  | none => none

/-- One attempt of `MD_PATTERN`, including the `(?<!\d)` lookbehind. -/
def matchMDAt (prev : Option Char) (s : List Char) : Option (List Char × List Char) :=
  match prev with
  | some c => if c.isDigit then none else matchMDCore s
  | none => matchMDCore s

/-- One attempt of `(\d{4})\s*\.\s*(\d{1,2})\s*\.\s*(\d{1,2})` (`parse_publish_text`). -/
def matchPubAt (s : List Char) : Option (List Char × List Char × List Char) :=
  match takeDigitsN 4 s with
  | none => none
  | some (yc, r1) =>
    match skipWs r1 with
    | [] => none
    | c :: r2 =>
      if c = '.' then
        match grab12 (fun r =>
            match skipWs r with
            | c2 :: r3 => if c2 = '.' then some (skipWs r3) else none
            | [] => none) (skipWs r2) with
        | none => none
        | some (mc, r3) =>
          match grab12 (fun r => some r) r3 with
          | none => none
          | some (dc, _) => some (yc, mc, dc)
      else none

/-- `re.search`: try the matcher at each position, left to right, passing the
previous character for lookbehind / word-boundary tests. -/
def reSearchAux {α : Type} (tryAt : Option Char → List Char → Option α) :
    Option Char → List Char → Option α
  | prev, [] => tryAt prev []
  | prev, c :: r =>
    match tryAt prev (c :: r) with
    | some g => some g
    | none => reSearchAux tryAt (some c) r

def reSearch {α : Type} (tryAt : Option Char → List Char → Option α) (s : List Char) : Option α :=
  reSearchAux tryAt none s

-- ===== canonical_key_from_url and parse_blog_id_logno =====

def startsWithCh : List Char → List Char → Bool
  | [], _ => true
  | _ :: _, [] => false
  | p :: ps, c :: cs => p = c && startsWithCh ps cs

def logNoLit : List Char := "logNo=".data

/-- One attempt of `logNo=(\d+)` at the current position. -/
def isLogNoAt (s : List Char) : Bool :=
  startsWithCh logNoLit s &&
    (match s.drop 6 with
     | c :: _ => c.isDigit
     | [] => false)

/-- `re.search(r"logNo=(\d+)", u)`, returning group 1. -/
def findLogNo : List Char → Option (List Char)
  | [] => none
  | c :: r =>
    if isLogNoAt (c :: r) then some (((c :: r).drop 6).takeWhile Char.isDigit)
    else findLogNo r

/-- One attempt of `/(\d{6,})$`: a slash whose entire remaining suffix is at
least six digits. -/
def trySlashAt : List Char → Option (List Char)
  | [] => none
  | c :: r => if c = '/' ∧ r.all Char.isDigit ∧ 6 ≤ r.length then some r else none

/-- `re.search(r"/(\d{6,})$", u)`, returning group 1. -/
def findTrailing : List Char → Option (List Char)
  | [] => none
  | c :: r =>
    match trySlashAt (c :: r) with
    | some k => some k
    | none => findTrailing r

def canonical_key_from_url (u : List Char) : Option (List Char) :=
  match findLogNo u with
  | some k => some k
  | none => findTrailing u

def blogIdLit : List Char := "blogId=".data

/-- One attempt of `[?&]blogId=([^&]+)`. -/
def tryBlogIdAt : List Char → Option (List Char)
  | [] => none
  | c :: r =>
    if (c = '?' ∨ c = '&') ∧ startsWithCh blogIdLit r then
      match (r.drop 7).takeWhile (fun c2 => !(c2 = '&')) with
      | [] => none
      | k => some k
    else none

def findBlogIdParam : List Char → Option (List Char)
  | [] => none
  | c :: r =>
    match tryBlogIdAt (c :: r) with
    | some k => some k
    | none => findBlogIdParam r

def mobLit : List Char := "m.blog.naver.com/".data

/-- One attempt of `m\.blog\.naver\.com/([^/]+)/(\d+)`. -/
def tryMobAt (s : List Char) : Option (List Char × List Char) :=
  if startsWithCh mobLit s then
    let r := s.drop 17
    let g1 := r.takeWhile (fun c => !(c = '/'))
    if g1 = [] then none
    else
      match r.drop g1.length with
      | c :: r2 =>
        if c = '/' then
          match r2.takeWhile Char.isDigit with
          | [] => none
          | g2 => some (g1, g2)
        else none
      | [] => none
  else none

def findMob : List Char → Option (List Char × List Char)
  | [] => none
  | c :: r =>
    match tryMobAt (c :: r) with
    | some g => some g
    | none => findMob r

def parse_blog_id_logno (u : List Char) : Option (List Char) × Option (List Char) :=
  let log_no := canonical_key_from_url u
  match findBlogIdParam u with
  | some b => (some b, log_no)
  | none =>
    match findMob u with
    | some (b, l) => (some b, some l)
    | none => (none, log_no)

-- ===== date parsing =====

def is_plausible_ymd (curr y m d : Nat) : Bool :=
  if ¬ (2005 ≤ y ∧ y ≤ curr + 1) then false
  else if ¬ (1 ≤ m ∧ m ≤ 12) ∨ ¬ (1 ≤ d ∧ d ≤ 31) then false
  else true

/-- `_fmt_if_valid` from the source. -/
def fmt_if_valid (curr : Nat) (y mo d : List Char) : Option (List Char) :=
  let yi := charsToNat y
  let mi := charsToNat mo
  let di := charsToNat d
  if is_plausible_ymd curr yi mi di then some (fmtYmd yi mi di) else none

def normalize_date (curr : Nat) (text : List Char) (fallback_year : Option Nat) :
    Option (List Char) :=
  if text = [] then none
  else
    match (reSearch (fun _ s => matchP0At s) text).bind
        (fun g => fmt_if_valid curr g.1 g.2.1 g.2.2) with
    | some out => some out
    | none =>
      match (reSearch (fun _ s => matchP1At s) text).bind
          (fun g => fmt_if_valid curr g.1 g.2.1 g.2.2) with
      | some out => some out
      | none =>
        match (reSearch matchP2At text).bind
            (fun g => fmt_if_valid curr g.1 g.2.1 g.2.2) with
        | some out => some out
        | none =>
          match (reSearch matchP3At text).bind
              (fun g => fmt_if_valid curr g.1 g.2.1 g.2.2) with
          | some out => some out
          | none =>
            match fallback_year with
            | none => none
            | some fy =>
              if fy = 0 then none
              else
                (reSearch matchMDAt text).bind
                  (fun g => fmt_if_valid curr (natToChars fy) g.1 g.2)

def parse_publish_text (curr : Nat) (txt : List Char) (fallback_year : Nat) :
    Option (List Char) :=
  if txt = [] then none
  else
    match reSearch (fun _ s => matchPubAt s) txt with
    | some g => fmt_if_valid curr g.1 g.2.1 g.2.2
    | none =>
      match reSearch matchMDAt txt with
      | some g => fmt_if_valid curr (natToChars fallback_year) g.1 g.2
      | none => none

/-- The canonical output shape of the date parsers: a zero-padded
`YYYY-MM-DD` rendering of components inside the plausibility bounds (10
characters long as soon as the current year keeps the year four digits). -/
def canonicalYmdOut (curr : Nat) (v : List Char) : Prop :=
  ∃ yi mi di, v = fmtYmd yi mi di ∧ 2005 ≤ yi ∧ yi ≤ curr + 1 ∧ 1 ≤ mi ∧ mi ≤ 12 ∧
    1 ≤ di ∧ di ≤ 31 ∧ (curr ≤ 9998 → v.length = 10)

-- ===== ledger (index.txt) =====

/-- Python `str.splitlines` restricted to files whose only line-break
character is `'\n'`; the ledger theorems assume exactly that. -/
def splitLinesAux : List Char → List Char → List (List Char)
  | [], acc => if acc.isEmpty then [] else [acc.reverse]
  | c :: r, acc =>
    if c = '\n' then acc.reverse :: splitLinesAux r [] else splitLinesAux r (c :: acc)

def splitLines (s : List Char) : List (List Char) := splitLinesAux s []

/-- Python `str.split("\t")`. -/
def splitOnTabAux : List Char → List Char → List (List Char)
  | [], acc => [acc.reverse]
  | c :: r, acc =>
    if c = '\t' then acc.reverse :: splitOnTabAux r [] else splitOnTabAux r (c :: acc)

def splitOnTab (s : List Char) : List (List Char) := splitOnTabAux s []

/-- Python `str.isdigit` (ASCII digits). -/
def isPyDigitStr (s : List Char) : Bool := !s.isEmpty && s.all Char.isDigit

/-- `set.add`: sets of keys are modelled as duplicate-free insertion lists. -/
def insertKey (keys : List (List Char)) (k : List Char) : List (List Char) :=
  if k ∈ keys then keys else keys ++ [k]

/-- The loop body of `load_done_keys_from_index` for one line of the file. -/
def processIndexLine (keys : List (List Char)) (ln : List Char) : List (List Char) :=
  let l := pyStrip ln
  match l with
  | [] => keys
  | c :: _ =>
    if c = '#' then keys
    else
      match splitOnTab l with
      | [] => keys
      | p0 :: _ =>
        let k := pyStrip p0
        if isPyDigitStr k then insertKey keys k
        else
          match canonical_key_from_url k with
          | some k2 => insertKey keys k2
          | none => keys

def load_done_keys_from_index (file : List Char) : List (List Char) :=
  (splitLines file).foldl processIndexLine []

/-- `append_index_row`: the file is kept as its full character contents. -/
def append_index_row (file log_no date_str title filename url : List Char) : List Char :=
  file ++ log_no ++ '\t' :: date_str ++ '\t' :: title ++ '\t' :: filename ++ '\t' :: url ++ ['\n']

structure IndexRow where
  key : List Char
  date : List Char
  title : List Char
  fname : List Char
  url : List Char
deriving DecidableEq

def rowLine (r : IndexRow) : List Char :=
  r.key ++ ('\t' :: (r.date ++ ('\t' :: (r.title ++ ('\t' :: (r.fname ++ ('\t' :: r.url)))))))

def appendRows (file : List Char) (rows : List IndexRow) : List Char :=
  rows.foldl (fun f r => append_index_row f r.key r.date r.title r.fname r.url) file

/-- Field values legal in a ledger row for the round-trip statement: no tab
and no character Python `splitlines` treats as a line break. -/
def okFieldChar (c : Char) : Bool := !(c = '\t') && !(isPyLineBreak c)

def okField (f : List Char) : Bool := f.all okFieldChar

def okRow (r : IndexRow) : Bool :=
  !r.key.isEmpty && r.key.all Char.isDigit && okField r.date && okField r.title &&
    okField r.fname && okField r.url

/-- Text whose only line-break character is `'\n'` (the domain on which the
`splitLines` model is faithful to Python `splitlines`). -/
def okNlText (f : List Char) : Bool := f.all (fun c => !(isPyLineBreak c) || c = '\n')

/-- A line `load_done_keys_from_index` ignores: blank after strip, or a
`#`-comment. -/
def isIgnorableLine (ln : List Char) : Bool :=
  match pyStrip ln with
  | [] => true
  | c :: _ => c = '#'

-- ===== enumerate_category_via_api =====

def mkPostUrl (blogId logNo : List Char) : List Char :=
  "https://blog.naver.com/PostView.naver?blogId=".data ++ blogId ++ "&logNo=".data ++ logNo

/-- The per-page `for p in posts` loop: skip falsy `logNo` (modelled as `[]`),
skip already-seen ones, append a view URL for the others; returns the new
`seen`, the new `out` and the page's `added` count. -/
def addPosts (blogId : List Char) :
    List (List Char) → List (List Char) → List (List Char) →
    List (List Char) × List (List Char) × Nat
  | [], seen, out => (seen, out, 0)
  | p :: ps, seen, out =>
    if p = [] then addPosts blogId ps seen out
    else if p ∈ seen then addPosts blogId ps seen out
    else
      match addPosts blogId ps (seen ++ [p]) (out ++ [mkPostUrl blogId p]) with
      | (s2, o2, a2) => (s2, o2, a2 + 1)

/-- One page fetch with the source's single JSON-decode retry: `resp page a`
is the decode outcome of attempt `a` (`none` = decode failure).  A second
failure propagates (`none`), attempts beyond index 1 are never consulted. -/
def fetchPage (resp : Nat → Nat → Option (List (List Char))) (page : Nat) :
    Option (List (List Char)) :=
  match resp page 0 with
  | some j => some j
  | none => resp page 1

inductive EnumOut where
  | ok (urls : List (List Char)) (addedTrace : List Nat)
  | fatal
  | nofuel
deriving DecidableEq

/-- The `while True` loop of `enumerate_category_via_api`, with fuel.
`addedTrace` instruments the run with the `added` count of every non-empty
page processed, in order; it does not influence control flow. -/
def enumLoop (blogId : List Char) (resp : Nat → Nat → Option (List (List Char))) :
    Nat → Nat → List (List Char) → List (List Char) → List Nat → EnumOut
  | 0, _, _, _, _ => EnumOut.nofuel
  | fuel + 1, page, seen, out, tr =>
    match fetchPage resp page with
    | none => EnumOut.fatal
    | some posts =>
      if posts = [] then EnumOut.ok out tr
      else
        match addPosts blogId posts seen out with
        | (seen2, out2, added) =>
          if added = 0 then EnumOut.ok out2 (tr ++ [added])
          else enumLoop blogId resp fuel (page + 1) seen2 out2 (tr ++ [added])

def enumerate_category_via_api (blogId : List Char)
    (resp : Nat → Nat → Option (List (List Char))) (fuel : Nat) : EnumOut :=
  enumLoop blogId resp fuel 1 [] [] []

def hasConsecZeros : List Nat → Bool
  | a :: b :: t => ((a == 0) && (b == 0)) || hasConsecZeros (b :: t)
  | _ => false

-- ===== filenames and the login-page check =====

def badFileChar (c : Char) : Bool :=
  c = '\\' || c = '/' || c = ':' || c = '*' || c = '?' || c = '"' || c = '<' || c = '>' || c = '|'

/-- `re.sub(r"\s+", " ", s)`: each maximal whitespace run becomes one space. -/
def collapseWsAux : Bool → List Char → List Char
  | _, [] => []
  | inRun, c :: r =>
    if pyIsSpace c then
      if inRun then collapseWsAux true r else ' ' :: collapseWsAux true r
    else c :: collapseWsAux false r

def safe_filename (s : List Char) : List Char :=
  let s1 := s.map (fun c => if badFileChar c then '_' else c)
  let s2 := pyStrip (collapseWsAux false s1)
  s2.take 180

def loginLit : List Char := "로그인".data

def naverLit : List Char := "네이버".data

/-- Python `sub in s`. -/
def containsSub (pat : List Char) : List Char → Bool
  | [] => startsWithCh pat []
  | c :: r => startsWithCh pat (c :: r) || containsSub pat (r)

/-- The login/interstitial test applied to `driver.title` in both save paths:
`("네이버" in t and "로그인" in t) or ("로그인" in t)`. -/
def loginSkip (t : List Char) : Bool :=
  (containsSub naverLit t && containsSub loginLit t) || containsSub loginLit t

inductive Eff where
  | navigate (u : List Char)
  | writeFile (path : List Char)
deriving DecidableEq

/-- The browser renderer and filesystem, as oracles: the resolved page title,
the `(title, date_norm, used_upload_today)` result of
`extract_title_and_date`, and the `fpath.exists()` collision test. -/
structure Browser where
  pageTitle : List Char → List Char
  extractedTitle : List Char → List Char
  extractedDate : List Char → List Char
  extractedFallback : List Char → Bool
  fileExists : List Char → Bool

def pdfExt : List Char := ".pdf".data

def uploadTag : List Char := "(업로드날짜)".data

/-- `save_post_as_pdf_devtools`: returns the `(fpath, title, date_for_name)`
result (or `none` for the login-page skip) together with the list of effects
performed, in order. -/
def save_post_as_pdf_devtools (br : Browser) (u : List Char) :
    Option (List Char × List Char × List Char) × List Eff :=
  let title_check := br.pageTitle u
  if loginSkip title_check then (none, [Eff.navigate u])
  else
    let title := br.extractedTitle u
    let date_norm := br.extractedDate u
    let date_for_name := if br.extractedFallback u then date_norm ++ uploadTag else date_norm
    let base := date_for_name ++ '_' :: safe_filename title
    let f1 := base ++ pdfExt
    let fpath :=
      if br.fileExists f1 then
        match (parse_blog_id_logno u).2 with
        | some l => base ++ '_' :: l ++ pdfExt
        | none => f1
      else f1
    (some (fpath, title, date_for_name), [Eff.navigate u, Eff.writeFile fpath])

-- ===== the URL-file mode of main() =====

def keyOrUrl (u : List Char) : List Char :=
  match canonical_key_from_url u with
  | some k => k
  | none => u

/-- `main`'s order-preserving dedup of the URL list by `canonical_key_from_url(u) or u`. -/
def dedupByKeyAux : List (List Char) → List (List Char) → List (List Char)
  | _, [] => []
  | seen, u :: r =>
    if keyOrUrl u ∈ seen then dedupByKeyAux seen r
    else u :: dedupByKeyAux (keyOrUrl u :: seen) r

/-- `canonical_key_from_url(u) not in done_keys` (a key-less URL is kept). -/
def notDoneFilter (done : List (List Char)) (u : List Char) : Bool :=
  match canonical_key_from_url u with
  | some k => if k ∈ done then false else true
  | none => true

/-- Render results whose fields may legally enter a ledger row. -/
def okRenderOut (t : List Char × List Char × List Char) : Bool :=
  okField t.1 && okField t.2.1 && okField t.2.2

structure RunSt where
  file : List Char
  done : List (List Char)
  saved : Nat
deriving DecidableEq

/-- One iteration of `main`'s per-URL loop: `render u` is the outcome of the
save call (`none` both for a skip and for a caught per-item exception). -/
def processUrlF (render : List Char → Option (List Char × List Char × List Char))
    (st : RunSt) (u : List Char) : RunSt :=
  match render u with
  | none => st
  | some (fname, title, date_for_name) =>
    let log_no :=
      match canonical_key_from_url u with
      | some k => k
      | none => []
    if log_no ≠ [] ∧ log_no ∈ st.done then { st with saved := st.saved + 1 }
    else
      { file := append_index_row st.file log_no date_for_name title fname u,
        done := if log_no ≠ [] then st.done ++ [log_no] else st.done,
        saved := st.saved + 1 }

/-- The URL-file mode of `main`: load the ledger, dedup, filter, process each
remaining URL.  Returns the final state and the processed URL list. -/
def mainUrlsMode (render : List Char → Option (List Char × List Char × List Char))
    (file0 : List Char) (urls : List (List Char)) : RunSt × List (List Char) :=
  let done0 := load_done_keys_from_index file0
  let url_list := (dedupByKeyAux [] urls).filter (notDoneFilter done0)
  (url_list.foldl (processUrlF render) ⟨file0, done0, 0⟩, url_list)

-- sanity checks of the embedding on concrete inputs
example : canonical_key_from_url "https://blog.naver.com/PostView.naver?blogId=ab&logNo=12345678".data
    = some "12345678".data := by decide
example : canonical_key_from_url "https://m.blog.naver.com/ab/12345678".data
    = some "12345678".data := by decide
example : canonical_key_from_url "https://blog.naver.com/ab".data = none := by decide
example : normalize_date 2025 "2025.09.07".data none = some "2025-09-07".data := by decide
example : normalize_date 2025 "2025년 9월 7일".data none = some "2025-09-07".data := by decide
example : normalize_date 2025 " 20250907123012,".data none = some "2025-09-07".data := by decide
example : normalize_date 2025 "x20250907123012y".data none = none := by decide
example : normalize_date 2025 "a 20250907 b".data none = some "2025-09-07".data := by decide
example : normalize_date 2025 "9.7.".data (some 2024) = some "2024-09-07".data := by decide
example : normalize_date 2025 "9.7.".data none = none := by decide
example : normalize_date 2025 "1899-01-01".data (some 2024) = none := by decide
example : parse_publish_text 2025 "2025. 8. 31. 23:00".data 2024 = some "2025-08-31".data := by
  decide
example : parse_blog_id_logno "https://m.blog.naver.com/abc/123".data
    = (some "abc".data, some "123".data) := by decide
example : load_done_keys_from_index "# c\n123\t2020-01-01\tt\tf\tu\n\n456\ta\tb\tc\td\n".data
    = ["123".data, "456".data] := by decide
example :
    splitLines "a\nb".data = ["a".data, "b".data] ∧ splitLines "a\nb\n".data
    = ["a".data, "b".data] ∧ splitLines "\n".data = [[]] ∧ splitLines [] = [] := by decide
example : splitOnTab "a\tb".data = ["a".data, "b".data] ∧ splitOnTab [] = [[]] := by decide
example : safe_filename "a:  b?".data = "a_ b_".data := by decide
example : loginSkip "네이버 로그인".data = true ∧ loginSkip "로그인".data = true ∧
    loginSkip "제목".data = false := by decide
example :
    enumerate_category_via_api "ab".data
      (fun _ _ => some ["111111".data, "222222".data]) 9
    = EnumOut.ok [mkPostUrl "ab".data "111111".data, mkPostUrl "ab".data "222222".data]
        [2, 0] := by decide
example :
    enumerate_category_via_api "ab".data (fun p _ => if p = 3 then some [] else
      some [natToChars (100000 + p)]) 9
    = EnumOut.ok [mkPostUrl "ab".data "100001".data, mkPostUrl "ab".data "100002".data]
        [1, 1] := by decide

-- ===== general lemmas: character classes =====

theorem isDigit_ne {c x : Char} (h : c.isDigit = true) (hx : x.isDigit = false) : c ≠ x := by
  intro he
  subst he
  rw [h] at hx
  cases hx

theorem isDigit_not_space {c : Char} (h : c.isDigit = true) : pyIsSpace c = false := by
  cases h' : pyIsSpace c with
  | false => rfl
  | true =>
    simp only [pyIsSpace, Bool.or_eq_true, decide_eq_true_eq] at h'
    rcases h' with ((((rfl | rfl) | rfl) | rfl) | rfl) | rfl <;> exact absurd h (by decide)

theorem isDigit_not_break {c : Char} (h : c.isDigit = true) : isPyLineBreak c = false := by
  cases h' : isPyLineBreak c with
  | false => rfl
  | true =>
    simp only [isPyLineBreak, Bool.or_eq_true, decide_eq_true_eq] at h'
    rcases h' with ((((((((rfl | rfl) | rfl) | rfl) | rfl) | rfl) | rfl) | rfl) | rfl) | rfl <;>
      exact absurd h (by decide)

theorem space_not_isDigit {c : Char} (h : pyIsSpace c = true) : c.isDigit = false := by
  cases h' : c.isDigit with
  | false => rfl
  | true => rw [isDigit_not_space h'] at h; cases h

-- ===== general lemmas: digit strings and numbers =====

theorem charsToNat_append_digit (l : List Char) (c : Char) :
    charsToNat (l ++ [c]) = 10 * charsToNat l + charVal c := by
  simp [charsToNat, List.foldl_append]

theorem digitChar_isDigit {k : Nat} (h : k < 10) : (Nat.digitChar k).isDigit = true := by
  interval_cases k <;> decide

theorem charVal_digitChar {k : Nat} (h : k < 10) : charVal (Nat.digitChar k) = k := by
  interval_cases k <;> decide

theorem natToCharsAux_toNat : ∀ fuel n, n ≤ fuel → charsToNat (natToCharsAux fuel n) = n := by
  intro fuel
  induction fuel with
  | zero =>
    intro n h
    have hn : n = 0 := Nat.le_zero.mp h
    subst hn
    simp [natToCharsAux, charsToNat]
  | succ f ih =>
    intro n h
    by_cases hn : n = 0
    · subst hn; simp [natToCharsAux, charsToNat]
    · have hlt : n / 10 < n := Nat.div_lt_self (Nat.pos_of_ne_zero hn) (by norm_num)
      have hdiv : n / 10 ≤ f := by omega
      simp only [natToCharsAux, hn, if_false]
      rw [charsToNat_append_digit, ih _ hdiv, charVal_digitChar (Nat.mod_lt n (by norm_num))]
      omega

theorem natToChars_toNat (n : Nat) : charsToNat (natToChars n) = n := by
  by_cases hn : n = 0
  · subst hn; decide
  · simp [natToChars, hn]
    exact natToCharsAux_toNat n n le_rfl

theorem natToCharsAux_digits :
    ∀ fuel n, ∀ c ∈ natToCharsAux fuel n, c.isDigit = true := by
  intro fuel
  induction fuel with
  | zero => intro n c hc; simp [natToCharsAux] at hc
  | succ f ih =>
    intro n c hc
    by_cases hn : n = 0
    · subst hn; simp [natToCharsAux] at hc
    · simp only [natToCharsAux, hn, if_false, List.mem_append, List.mem_singleton] at hc
      rcases hc with hc | rfl
      · exact ih _ _ hc
      · exact digitChar_isDigit (Nat.mod_lt n (by norm_num))

theorem natToChars_digits (n : Nat) : ∀ c ∈ natToChars n, c.isDigit = true := by
  intro c hc
  by_cases hn : n = 0
  · subst hn; simp [natToChars] at hc; subst hc; decide
  · simp only [natToChars, hn, if_false] at hc
    exact natToCharsAux_digits n n c hc

theorem natToCharsAux_len_le :
    ∀ fuel n k, n ≤ fuel → n < 10 ^ k → (natToCharsAux fuel n).length ≤ k := by
  intro fuel
  induction fuel with
  | zero =>
    intro n k h _
    have hn : n = 0 := Nat.le_zero.mp h
    subst hn
    simp [natToCharsAux]
  | succ f ih =>
    intro n k h hk
    by_cases hn : n = 0
    · subst hn; simp [natToCharsAux]
    · cases k with
      | zero => simp at hk; omega
      | succ k' =>
        have hlt : n / 10 < n := Nat.div_lt_self (Nat.pos_of_ne_zero hn) (by norm_num)
        have h1 : n / 10 ≤ f := by omega
        have h2 : n / 10 < 10 ^ k' := by
          rw [Nat.div_lt_iff_lt_mul (by norm_num : 0 < 10)]
          calc n < 10 ^ (k' + 1) := hk
            _ = 10 ^ k' * 10 := by ring
        simp only [natToCharsAux, hn, if_false, List.length_append, List.length_singleton]
        have := ih (n / 10) k' h1 h2
        omega

theorem natToCharsAux_len_ge :
    ∀ fuel n k, n ≤ fuel → 10 ^ k ≤ n → k + 1 ≤ (natToCharsAux fuel n).length := by
  intro fuel
  induction fuel with
  | zero =>
    intro n k h hk
    have hn : n = 0 := Nat.le_zero.mp h
    subst hn
    have : 0 < 10 ^ k := Nat.pos_pow_of_pos k (by norm_num)
    omega
  | succ f ih =>
    intro n k h hk
    have hpos : 0 < n := by
      have : 0 < 10 ^ k := Nat.pos_pow_of_pos k (by norm_num)
      omega
    have hn : n ≠ 0 := Nat.pos_iff_ne_zero.mp hpos
    cases k with
    | zero =>
      simp only [natToCharsAux, hn, if_false, List.length_append, List.length_singleton]
      omega
    | succ k' =>
      have hlt : n / 10 < n := Nat.div_lt_self hpos (by norm_num)
      have h1 : n / 10 ≤ f := by omega
      have h2 : 10 ^ k' ≤ n / 10 := by
        rw [Nat.le_div_iff_mul_le (by norm_num : 0 < 10)]
        calc 10 ^ k' * 10 = 10 ^ (k' + 1) := by ring
          _ ≤ n := hk
      simp only [natToCharsAux, hn, if_false, List.length_append, List.length_singleton]
      have := ih (n / 10) k' h1 h2
      omega

theorem charsToNat_replicate_zero (k : Nat) (s : List Char) :
    charsToNat (List.replicate k '0' ++ s) = charsToNat s := by
  induction k with
  | zero => simp
  | succ m ih =>
    have h0 : charVal '0' = 0 := by decide
    simp only [List.replicate_succ, List.cons_append, charsToNat, List.foldl_cons] at ih ⊢
    simpa [h0] using ih

theorem padLeftZeros_toNat (w : Nat) (s : List Char) :
    charsToNat (padLeftZeros w s) = charsToNat s := by
  simp [padLeftZeros, charsToNat_replicate_zero]

theorem padLeftZeros_digits (w : Nat) (s : List Char) (hs : ∀ c ∈ s, c.isDigit = true) :
    ∀ c ∈ padLeftZeros w s, c.isDigit = true := by
  intro c hc
  simp only [padLeftZeros, List.mem_append, List.mem_replicate] at hc
  rcases hc with ⟨_, rfl⟩ | hc
  · decide
  · exact hs c hc

theorem padLeftZeros_length (w : Nat) (s : List Char) (h : s.length ≤ w) :
    (padLeftZeros w s).length = w := by
  simp [padLeftZeros]
  omega

theorem natToChars_length_le {n k : Nat} (hk : 0 < k) (h : n < 10 ^ k) :
    (natToChars n).length ≤ k := by
  by_cases hn : n = 0
  · subst hn; simp [natToChars]; omega
  · simp only [natToChars, hn, if_false]
    exact natToCharsAux_len_le n n k le_rfl h

theorem pad2_spec {n : Nat} (h : n < 100) :
    charsToNat (pad2 n) = n ∧ (pad2 n).length = 2 ∧ ∀ c ∈ pad2 n, c.isDigit = true := by
  refine ⟨?_, ?_, ?_⟩
  · rw [pad2, padLeftZeros_toNat, natToChars_toNat]
  · exact padLeftZeros_length 2 _ (natToChars_length_le (by norm_num) (by omega))
  · exact padLeftZeros_digits 2 _ (natToChars_digits n)

theorem pad4_spec {n : Nat} (h : n < 10000) :
    charsToNat (pad4 n) = n ∧ (pad4 n).length = 4 ∧ ∀ c ∈ pad4 n, c.isDigit = true := by
  refine ⟨?_, ?_, ?_⟩
  · rw [pad4, padLeftZeros_toNat, natToChars_toNat]
  · exact padLeftZeros_length 4 _ (natToChars_length_le (by norm_num) (by omega))
  · exact padLeftZeros_digits 4 _ (natToChars_digits n)

theorem pad4_eq_natToChars {n : Nat} (h1 : 1000 ≤ n) (h2 : n < 10000) :
    pad4 n = natToChars n := by
  have hlen : (natToChars n).length = 4 := by
    have hle : (natToChars n).length ≤ 4 := natToChars_length_le (by norm_num) (by omega)
    have hge : 4 ≤ (natToChars n).length := by
      have hn : n ≠ 0 := by omega
      simp only [natToChars, hn, if_false]
      exact natToCharsAux_len_ge n n 3 le_rfl (by simpa using h1)
    omega
  simp [pad4, padLeftZeros, hlen]

-- ===== C7: plausibility bounds =====

theorem fmt_if_valid_1899 (curr : Nat) :
    fmt_if_valid curr ['1', '8', '9', '9'] ['0', '1'] ['0', '1'] = none := by
  have hy : charsToNat ['1', '8', '9', '9'] = 1899 := by decide
  have hm : charsToNat ['0', '1'] = 1 := by decide
  simp [fmt_if_valid, hy, hm, is_plausible_ymd]

theorem fmt_if_valid_2999 (curr : Nat) (h : curr ≤ 2997) :
    fmt_if_valid curr ['2', '9', '9', '9'] ['0', '1'] ['0', '1'] = none := by
  have hy : charsToNat ['2', '9', '9', '9'] = 2999 := by decide
  have hm : charsToNat ['0', '1'] = 1 := by decide
  simp [fmt_if_valid, hy, hm, is_plausible_ymd]
  omega

theorem is_plausible_ymd_iff (curr y m d : Nat) :
    is_plausible_ymd curr y m d = true ↔
      (2005 ≤ y ∧ y ≤ curr + 1 ∧ 1 ≤ m ∧ m ≤ 12 ∧ 1 ≤ d ∧ d ≤ 31) := by
  simp only [is_plausible_ymd]
  split_ifs with h1 h2 <;> simp <;> omega

/-- C7: `is_plausible_ymd` accepts exactly year ∈ [2005, curr+1], month ∈ [1,12],
day ∈ [1,31]; there is no per-month day-count validation (February 30 is
accepted); and `normalize_date` on `"1899-01-01"` and `"2999-01-01"` returns
no match (the latter whenever the current year is at most 2997, so that 2999
really is implausible). -/
theorem plausibility_bounds_and_implausible_years :
    (∀ curr y m d, is_plausible_ymd curr y m d = true ↔
        (2005 ≤ y ∧ y ≤ curr + 1 ∧ 1 ≤ m ∧ m ≤ 12 ∧ 1 ≤ d ∧ d ≤ 31))
    ∧ (∀ curr, 2019 ≤ curr → is_plausible_ymd curr 2020 2 30 = true)
    ∧ (∀ curr fy, normalize_date curr ("1899-01-01".data) fy = none)
    ∧ (∀ curr fy, curr ≤ 2997 → normalize_date curr ("2999-01-01".data) fy = none) := by
  refine ⟨?_, ?_, ?_, ?_⟩
  · exact is_plausible_ymd_iff
  · intro curr h
    simp [is_plausible_ymd]
    omega
  · intro curr fy
    have h0 : reSearch (fun _ s => matchP0At s) ("1899-01-01".data)
        = some ("1899".data, "01".data, "01".data) := by decide
    have h1 : reSearch (fun _ s => matchP1At s) ("1899-01-01".data) = none := by decide
    have h2 : reSearch matchP2At ("1899-01-01".data) = none := by decide
    have h3 : reSearch matchP3At ("1899-01-01".data) = none := by decide
    have hmd : reSearch matchMDAt ("1899-01-01".data) = none := by decide
    unfold normalize_date
    rw [if_neg (by decide), h0, h1, h2, h3, hmd]
    simp [fmt_if_valid_1899]
    cases fy with
    | none => rfl
    | some v =>
      by_cases hv : v = 0 <;> simp [hv]
  · intro curr fy h
    have h0 : reSearch (fun _ s => matchP0At s) ("2999-01-01".data)
        = some ("2999".data, "01".data, "01".data) := by decide
    have h1 : reSearch (fun _ s => matchP1At s) ("2999-01-01".data) = none := by decide
    have h2 : reSearch matchP2At ("2999-01-01".data) = none := by decide
    have h3 : reSearch matchP3At ("2999-01-01".data) = none := by decide
    have hmd : reSearch matchMDAt ("2999-01-01".data) = none := by decide
    unfold normalize_date
    rw [if_neg (by decide), h0, h1, h2, h3, hmd]
    simp [fmt_if_valid_2999 curr h]
    cases fy with
    | none => rfl
    | some v =>
      by_cases hv : v = 0 <;> simp [hv]

theorem plausibility_bounds_and_implausible_years_witness :
    (is_plausible_ymd 2025 2020 2 30 = true)
    ∧ (is_plausible_ymd 2025 2020 13 5 = true ↔
        (2005 ≤ 2020 ∧ 2020 ≤ 2025 + 1 ∧ 1 ≤ 13 ∧ 13 ≤ 12 ∧ 1 ≤ 5 ∧ 5 ≤ 31))
    ∧ normalize_date 2025 ("1899-01-01".data) (some 2024) = none
    ∧ normalize_date 2025 ("2999-01-01".data) (some 2024) = none :=
  ⟨plausibility_bounds_and_implausible_years.2.1 2025 (by norm_num),
   plausibility_bounds_and_implausible_years.1 2025 2020 13 5,
   plausibility_bounds_and_implausible_years.2.2.1 2025 (some 2024),
   plausibility_bounds_and_implausible_years.2.2.2 2025 (some 2024) (by norm_num)⟩

-- ===== C8: JSON-decode retry =====

/-- C8: a decode failure on a page (attempt 0 returns `none`) triggers exactly
one retry (attempt 1): a successful first attempt is used as is, a successful
retry recovers, a failing retry is fatal for the whole enumeration, and the
enumeration never consults any attempt beyond index 1 (no third attempt, no
skipping of the page). -/
theorem enum_json_retry_semantics :
    (∀ resp p j, resp p 0 = some j → fetchPage resp p = some j)
    ∧ (∀ resp p j, resp p 0 = none → resp p 1 = some j → fetchPage resp p = some j)
    ∧ (∀ resp p, resp p 0 = none → resp p 1 = none → fetchPage resp p = none)
    ∧ (∀ b resp fuel, resp 1 0 = none → resp 1 1 = none → 1 ≤ fuel →
        enumerate_category_via_api b resp fuel = EnumOut.fatal)
    ∧ (∀ (b : List Char) (resp resp' : Nat → Nat → Option (List (List Char)))
        (fuel page : Nat) seen out tr,
        (∀ p a, a ≤ 1 → resp p a = resp' p a) →
        enumLoop b resp fuel page seen out tr = enumLoop b resp' fuel page seen out tr) := by
  refine ⟨?_, ?_, ?_, ?_, ?_⟩
  · intro resp p j h
    simp [fetchPage, h]
  · intro resp p j h0 h1
    simp [fetchPage, h0, h1]
  · intro resp p h0 h1
    simp [fetchPage, h0, h1]
  · intro b resp fuel h0 h1 hf
    obtain ⟨f, rfl⟩ : ∃ f, fuel = f + 1 := ⟨fuel - 1, by omega⟩
    simp [enumerate_category_via_api, enumLoop, fetchPage, h0, h1]
  · intro b resp resp' fuel
    induction fuel with
    | zero => intro page seen out tr h; rfl
    | succ f ih =>
      intro page seen out tr h
      have hf : fetchPage resp page = fetchPage resp' page := by
        have ha0 := h page 0 (by omega)
        have ha1 := h page 1 (by omega)
        simp [fetchPage, ha0, ha1]
      simp only [enumLoop, hf]
      cases hfp : fetchPage resp' page with
      | none => rfl
      | some posts =>
        by_cases hp : posts = []
        · simp [hp]
        · simp only [hp, if_false]
          rcases hadd : addPosts b posts seen out with ⟨s2, o2, a2⟩
          by_cases ha : a2 = 0
          · simp [ha]
          · simp [ha, ih _ _ _ _ h]

theorem enum_json_retry_semantics_witness :
    fetchPage (fun _ _ => some [['1']]) 1 = some [['1']]
    ∧ fetchPage (fun _ a => if a = 0 then none else some [['1']]) 1 = some [['1']]
    ∧ fetchPage (fun _ _ => none) 1 = none
    ∧ enumerate_category_via_api ['a'] (fun _ _ => none) 3 = EnumOut.fatal
    ∧ enumLoop ['a'] (fun _ a => if a ≤ 1 then some [] else none) 2 1 [] [] []
      = enumLoop ['a'] (fun _ a => if a ≤ 1 then some [] else some [['9']]) 2 1 [] [] [] :=
  ⟨enum_json_retry_semantics.1 _ 1 _ rfl,
   enum_json_retry_semantics.2.1 _ 1 _ rfl rfl,
   enum_json_retry_semantics.2.2.1 _ 1 rfl rfl,
   enum_json_retry_semantics.2.2.2.1 ['a'] _ 3 rfl rfl (by norm_num),
   enum_json_retry_semantics.2.2.2.2 ['a'] _ _ 2 1 [] [] []
     (fun _ a ha => by simp [ha])⟩

-- ===== C4: enumerator termination =====

theorem addPosts_seen_mono (b : List Char) :
    ∀ P seen out, ∀ x ∈ seen, x ∈ (addPosts b P seen out).1 := by
  intro P
  induction P with
  | nil => intro seen out x hx; simpa [addPosts] using hx
  | cons p ps ih =>
    intro seen out x hx
    by_cases hpe : p = []
    · simpa [addPosts, hpe] using ih seen out x hx
    · by_cases hps : p ∈ seen
      · simpa [addPosts, hpe, hps] using ih seen out x hx
      · rcases h2 : addPosts b ps (seen ++ [p]) (out ++ [mkPostUrl b p]) with ⟨s2, o2, a2⟩
        have hx2 : x ∈ seen ++ [p] := by simp [hx]
        have := ih (seen ++ [p]) (out ++ [mkPostUrl b p]) x hx2
        rw [h2] at this
        simp [addPosts, hpe, hps, h2]
        exact this

theorem addPosts_mem_seen (b : List Char) :
    ∀ P seen out p, p ∈ P → p ≠ [] → p ∈ (addPosts b P seen out).1 := by
  intro P
  induction P with
  | nil => intro seen out p hp; cases hp
  | cons q qs ih =>
    intro seen out p hp hne
    rcases List.mem_cons.mp hp with rfl | hp'
    · by_cases hps : p ∈ seen
      · simp only [addPosts, if_neg hne, if_pos hps]
        exact addPosts_seen_mono b qs seen out p hps
      · rcases h2 : addPosts b qs (seen ++ [p]) (out ++ [mkPostUrl b p]) with ⟨s2, o2, a2⟩
        have hm : p ∈ (addPosts b qs (seen ++ [p]) (out ++ [mkPostUrl b p])).1 :=
          addPosts_seen_mono b qs (seen ++ [p]) (out ++ [mkPostUrl b p]) p (by simp)
        rw [h2] at hm
        simp [addPosts, hne, hps, h2]
        exact hm
    · by_cases hqe : q = []
      · simpa [addPosts, hqe] using ih seen out p hp' hne
      · by_cases hqs : q ∈ seen
        · simpa [addPosts, hqe, hqs] using ih seen out p hp' hne
        · rcases h2 : addPosts b qs (seen ++ [q]) (out ++ [mkPostUrl b q]) with ⟨s2, o2, a2⟩
          have hm := ih (seen ++ [q]) (out ++ [mkPostUrl b q]) p hp' hne
          rw [h2] at hm
          simp [addPosts, hqe, hqs, h2]
          exact hm

theorem addPosts_all_seen (b : List Char) :
    ∀ P seen out, (∀ p ∈ P, p ≠ [] → p ∈ seen) → addPosts b P seen out = (seen, out, 0) := by
  intro P
  induction P with
  | nil => intro seen out _; rfl
  | cons q qs ih =>
    intro seen out h
    by_cases hqe : q = []
    · simp only [addPosts, if_pos hqe]
      exact ih seen out (fun p hp hne => h p (by simp [hp]) hne)
    · have hqs : q ∈ seen := h q (by simp) hqe
      simp only [addPosts, if_neg hqe, if_pos hqs]
      exact ih seen out (fun p hp hne => h p (by simp [hp]) hne)

/-- C4 counterexample: against an endpoint that forever re-serves one fixed
non-empty page, the enumeration requests pages 1 and 2 and stops with the
per-page added-counts trace `[1, 0]`: only a single page (page 2) added zero
new identifiers, never two consecutive ones, yet enumeration already stopped. -/
theorem enum_stops_after_single_zero_add_page :
    enumerate_category_via_api ['a', 'b']
        (fun _ _ => some [['1', '2', '3', '4', '5', '6']]) 9
      = EnumOut.ok [mkPostUrl ['a', 'b'] ['1', '2', '3', '4', '5', '6']] [1, 0]
    ∧ hasConsecZeros [1, 0] = false := by
  exact ⟨by decide, by decide⟩

/-- C4 (amended): when the listing endpoint repeats the same non-empty page
content forever, enumeration still terminates — the result with any fuel ≥ 2
equals the result with fuel 2, and it is an `ok` result whose added-counts
trace ends in a single zero (the code stops as soon as ONE page adds zero new
identifiers); and enumeration also stops when a requested page returns zero
posts. -/
theorem enum_anti_loop_guard :
    (∀ (b : List Char) (P : List (List Char)), P ≠ [] → ∀ fuel, 2 ≤ fuel →
        enumerate_category_via_api b (fun _ _ => some P) fuel
          = enumerate_category_via_api b (fun _ _ => some P) 2
        ∧ ∃ urls tr, enumerate_category_via_api b (fun _ _ => some P) fuel
            = EnumOut.ok urls (tr ++ [0]))
    ∧ (∀ (b : List Char) resp (fuel page : Nat) seen out tr,
        resp page 0 = some [] → 1 ≤ fuel →
        enumLoop b resp fuel page seen out tr = EnumOut.ok out tr) := by
  constructor
  · intro b P hP fuel hf
    obtain ⟨f, rfl⟩ : ∃ f, fuel = f + 2 := ⟨fuel - 2, by omega⟩
    rcases h1 : addPosts b P [] [] with ⟨s1, o1, a1⟩
    have hseen : ∀ p ∈ P, p ≠ [] → p ∈ s1 := by
      intro p hp hne
      have hm := addPosts_mem_seen b P [] [] p hp hne
      rw [h1] at hm
      exact hm
    have h2 : addPosts b P s1 o1 = (s1, o1, 0) := addPosts_all_seen b P s1 o1 hseen
    by_cases ha : a1 = 0
    · subst ha
      refine ⟨?_, o1, [], ?_⟩ <;>
        simp [enumerate_category_via_api, enumLoop, fetchPage, hP, h1]
    · refine ⟨?_, o1, [a1], ?_⟩ <;>
        simp [enumerate_category_via_api, enumLoop, fetchPage, hP, h1, h2, ha]
  · intro b resp fuel page seen out tr h hf
    obtain ⟨f, rfl⟩ : ∃ f, fuel = f + 1 := ⟨fuel - 1, by omega⟩
    simp [enumLoop, fetchPage, h]

theorem enum_anti_loop_guard_witness :
    (enumerate_category_via_api ['a'] (fun _ _ => some [['1', '1', '1', '1', '1', '1']]) 7
      = enumerate_category_via_api ['a'] (fun _ _ => some [['1', '1', '1', '1', '1', '1']]) 2)
    ∧ (∃ urls tr,
        enumerate_category_via_api ['a'] (fun _ _ => some [['1', '1', '1', '1', '1', '1']]) 7
          = EnumOut.ok urls (tr ++ [0]))
    ∧ enumLoop ['a'] (fun _ _ => some []) 5 1 [] [] [] = EnumOut.ok [] [] :=
  ⟨(enum_anti_loop_guard.1 ['a'] [['1', '1', '1', '1', '1', '1']] (by decide) 7 (by norm_num)).1,
   (enum_anti_loop_guard.1 ['a'] [['1', '1', '1', '1', '1', '1']] (by decide) 7 (by norm_num)).2,
   enum_anti_loop_guard.2 ['a'] (fun _ _ => some []) 5 1 [] [] [] rfl (by norm_num)⟩

-- ===== C9: login-page skip =====

/-- C9: when the loaded page's browser title satisfies the login test (it
contains both the platform name and the login word, or just the login word),
`save_post_as_pdf_devtools` returns the skip result `none` having performed no
effect beyond navigation — in particular it wrote no PDF file — and the
orchestrator's per-URL step leaves the run state (ledger file, done-key set,
counter) completely unchanged, so no ledger row is appended. -/
theorem login_page_skip (br : Browser) (u : List Char) (st : RunSt)
    (h : loginSkip (br.pageTitle u) = true) :
    save_post_as_pdf_devtools br u = (none, [Eff.navigate u])
    ∧ (∀ e ∈ (save_post_as_pdf_devtools br u).2, ∀ p, e ≠ Eff.writeFile p)
    ∧ processUrlF (fun v => (save_post_as_pdf_devtools br v).1) st u = st := by
  have h1 : save_post_as_pdf_devtools br u = (none, [Eff.navigate u]) := by
    simp [save_post_as_pdf_devtools, h]
  refine ⟨h1, ?_, ?_⟩
  · rw [h1]
    intro e he p
    simp only [List.mem_singleton] at he
    subst he
    simp
  · simp [processUrlF, h1]

theorem login_page_skip_witness :
    save_post_as_pdf_devtools
        ⟨fun _ => "네이버 로그인".data, fun _ => "t".data, fun _ => "2024-01-02".data,
         fun _ => false, fun _ => false⟩
        ("https://blog.naver.com/PostView.naver?blogId=a&logNo=111111".data)
      = (none, [Eff.navigate
          ("https://blog.naver.com/PostView.naver?blogId=a&logNo=111111".data)])
    ∧ processUrlF
        (fun v => (save_post_as_pdf_devtools
          ⟨fun _ => "네이버 로그인".data, fun _ => "t".data, fun _ => "2024-01-02".data,
           fun _ => false, fun _ => false⟩ v).1)
        ⟨"#ledger\n".data, [], 0⟩
        ("https://blog.naver.com/PostView.naver?blogId=a&logNo=111111".data)
      = ⟨"#ledger\n".data, [], 0⟩ :=
  ⟨(login_page_skip _ _ ⟨"#ledger\n".data, [], 0⟩ (by decide)).1,
   (login_page_skip _ _ ⟨"#ledger\n".data, [], 0⟩ (by decide)).2.2⟩

-- ===== C5: pattern priority =====

/-- C5 counterexample: the input text contains both the well-formed,
plausibility-passing four-digit-year date `2020-05-06` and the year-less
fragment `9.7.`; yet `normalize_date` (current year 2025, fallback year 2024)
returns the fallback-year-derived `2024-09-07`, not `2020-05-06`: only the
FIRST syntactic match of each pattern is plausibility-checked, and here the
leftmost four-digit-year match is the implausible `1999.1.1`, whose rejection
discards the whole pattern instead of retrying it later in the text. -/
theorem normalize_date_fallback_beats_plausible_date :
    containsSub "2020-05-06".data "1999.1.1 and 2020-05-06 and 9.7.".data = true
    ∧ normalize_date 2025 "1999.1.1 and 2020-05-06 and 9.7.".data (some 2024)
      = some "2024-09-07".data
    ∧ normalize_date 2025 "2020-05-06".data (some 2024) = some "2020-05-06".data := by
  exact ⟨by decide, by decide, by decide⟩

/-- C5 (amended): the five candidate patterns are applied in fixed priority
order, each contributing only its LEFTMOST syntactic match: whenever the
leftmost match of the first (four-digit-year) pattern itself passes
plausibility, `normalize_date` returns the value derived from it, for every
fallback year — in particular never the fallback-year-derived value. -/
theorem normalize_date_p0_priority (curr : Nat) (text : List Char)
    (g : List Char × List Char × List Char) (v : List Char)
    (hne : text ≠ [])
    (hscan : reSearch (fun _ s => matchP0At s) text = some g)
    (hfmt : fmt_if_valid curr g.1 g.2.1 g.2.2 = some v) :
    ∀ fy, normalize_date curr text fy = some v := by
  intro fy
  unfold normalize_date
  rw [if_neg hne, hscan]
  simp [Option.bind, hfmt]

theorem normalize_date_p0_priority_witness :
    normalize_date 2025 "x 2020-05-06 and 9.7.".data (some 1999)
      = some "2020-05-06".data :=
  normalize_date_p0_priority 2025 ("x 2020-05-06 and 9.7.".data)
    ("2020".data, "05".data, "06".data) ("2020-05-06".data)
    (by decide) (by decide) (by decide) (some 1999)

-- ===== C1: canonical keys =====

theorem takeWhile_append_all (p : Char → Bool) :
    ∀ l1 l2 : List Char, (∀ c ∈ l1, p c = true) →
      (l1 ++ l2).takeWhile p = l1 ++ l2.takeWhile p := by
  intro l1
  induction l1 with
  | nil => simp
  | cons a t ih =>
    intro l2 h
    simp [List.takeWhile_cons, h a (by simp), ih l2 (fun c hc => h c (by simp [hc]))]

theorem startsWithCh_append_self : ∀ p r : List Char, startsWithCh p (p ++ r) = true := by
  intro p
  induction p with
  | nil => intro r; rfl
  | cons a t ih => intro r; simp [startsWithCh, ih]

theorem startsWithCh_mem : ∀ (p s : List Char), startsWithCh p s = true → ∀ c ∈ p, c ∈ s := by
  intro p
  induction p with
  | nil => intro s _ c hc; cases hc
  | cons a t ih =>
    intro s h c hc
    cases s with
    | nil => simp [startsWithCh] at h
    | cons b s2 =>
      simp only [startsWithCh, Bool.and_eq_true, decide_eq_true_eq] at h
      rcases h with ⟨rfl, h2⟩
      rcases List.mem_cons.mp hc with rfl | hc2
      · simp
      · exact List.mem_cons_of_mem _ (ih s2 h2 c hc2)

theorem isLogNoAt_eq_mem {s : List Char} (h : isLogNoAt s = true) : '=' ∈ s := by
  simp only [isLogNoAt, Bool.and_eq_true] at h
  exact startsWithCh_mem logNoLit s h.1 '=' (by decide)

theorem findLogNo_no_eq : ∀ u : List Char, '=' ∉ u → findLogNo u = none := by
  intro u
  induction u with
  | nil => intro _; rfl
  | cons c r ih =>
    intro h
    have hat : isLogNoAt (c :: r) = false := by
      cases hb : isLogNoAt (c :: r) with
      | false => rfl
      | true => exact absurd (isLogNoAt_eq_mem hb) h
    simp only [findLogNo, hat, if_false]
    exact ih (fun hm => h (List.mem_cons_of_mem _ hm))

theorem findLogNo_append : ∀ (p m : List Char),
    (∀ t ∈ p.tails, t ≠ [] → isLogNoAt (t ++ m) = false) →
    findLogNo (p ++ m) = findLogNo m := by
  intro p
  induction p with
  | nil => intro m _; rfl
  | cons c q ih =>
    intro m h
    have h1 : isLogNoAt ((c :: q) ++ m) = false := by
      refine h (c :: q) ?_ (by simp)
      rw [List.tails_cons]
      exact List.mem_cons_self _ _
    rw [List.cons_append] at h1 ⊢
    simp only [findLogNo, h1, if_false]
    refine ih m (fun t ht hne => h t ?_ hne)
    rw [List.tails_cons]
    exact List.mem_cons_of_mem _ ht

theorem findLogNo_of_isLogNoAt_head :
    ∀ u : List Char, u ≠ [] → isLogNoAt u = true →
      findLogNo u = some ((u.drop 6).takeWhile Char.isDigit) := by
  intro u hne h
  cases u with
  | nil => exact absurd rfl hne
  | cons c r => simp [findLogNo, h]

theorem all_digit_no_slash {l : List Char} (h : '/' ∈ l) : l.all Char.isDigit = false := by
  cases hb : l.all Char.isDigit with
  | false => rfl
  | true => exact absurd (List.all_eq_true.mp hb '/' h) (by decide)

theorem findTrailing_append_slash :
    ∀ (q id : List Char), id.all Char.isDigit = true → 6 ≤ id.length →
    findTrailing (q ++ '/' :: id) = some id := by
  intro q id hdig hlen
  induction q with
  | nil =>
    have hsl : trySlashAt ('/' :: id) = some id := by
      simp [trySlashAt, hdig, hlen]
    simp [findTrailing, hsl]
  | cons c q2 ih =>
    have hsl : trySlashAt (c :: (q2 ++ '/' :: id)) = none := by
      by_cases hc : c = '/'
      · have hall : (q2 ++ '/' :: id).all Char.isDigit = false := all_digit_no_slash (by simp)
        simp [trySlashAt, hc, hall]
      · simp [trySlashAt, hc]
    rw [List.cons_append]
    simp only [findTrailing, hsl]
    exact ih

/-- C1 counterexample: the desktop URL and the mobile URL both carry the
numeric log identifier `123` (as a `logNo` query parameter resp. the trailing
path segment), yet their canonical keys disagree: the trailing-segment
pattern requires at least six digits, so the mobile URL yields no key at all
while the desktop URL yields `123`. -/
theorem canonical_key_short_id_disagrees :
    canonical_key_from_url "https://blog.naver.com/PostView.naver?blogId=abc&logNo=123".data
      = some "123".data
    ∧ canonical_key_from_url "https://m.blog.naver.com/abc/123".data = none := by
  exact ⟨by decide, by decide⟩

/-- C1 (amended): for a numeric log identifier of AT LEAST SIX digits, every
URL carrying it as a `logNo=` query parameter — in any position `p`/`s` around
it such that no earlier position of the URL matches `logNo=` followed by a
digit, and with no digit immediately following the identifier — and every
mobile-host URL carrying it as the trailing path segment after a slash yield
the same canonical key, namely the identifier itself.  (For identifiers
shorter than six digits the mobile form yields no key, see the
counterexample.) -/
theorem canonical_key_from_url_agrees (p s id bid : List Char)
    (hid : id ≠ []) (hdig : id.all Char.isDigit = true) (hlen : 6 ≤ id.length)
    (hs : s = [] ∨ ∃ c r, s = c :: r ∧ c.isDigit = false)
    (hpre : ∀ t ∈ p.tails, t ≠ [] → isLogNoAt (t ++ (logNoLit ++ id ++ s)) = false)
    (hbid : '=' ∉ bid) :
    canonical_key_from_url (p ++ (logNoLit ++ id ++ s)) = some id
    ∧ canonical_key_from_url ("https://m.blog.naver.com/".data ++ bid ++ '/' :: id)
      = some id := by
  constructor
  · have hdrop : (logNoLit ++ id ++ s).drop 6 = id ++ s := by
      rw [List.append_assoc]
      have h6 : logNoLit.length = 6 := by decide
      rw [← h6, List.drop_left]
    have hhead : isLogNoAt (logNoLit ++ id ++ s) = true := by
      cases id with
      | nil => exact absurd rfl hid
      | cons c id2 =>
        have hc : c.isDigit = true := List.all_eq_true.mp hdig c (by simp)
        simp only [isLogNoAt, Bool.and_eq_true]
        constructor
        · rw [List.append_assoc]
          exact startsWithCh_append_self logNoLit _
        · rw [hdrop]
          simpa using hc
    have hcap : ((logNoLit ++ id ++ s).drop 6).takeWhile Char.isDigit = id := by
      rw [hdrop, takeWhile_append_all Char.isDigit id s (List.all_eq_true.mp hdig)]
      rcases hs with rfl | ⟨c, r, rfl, hc⟩
      · simp
      · simp [List.takeWhile_cons, hc]
    have hfind : findLogNo (p ++ (logNoLit ++ id ++ s)) = some id := by
      rw [findLogNo_append p _ hpre,
        findLogNo_of_isLogNoAt_head _ (by simp [logNoLit]) hhead, hcap]
    unfold canonical_key_from_url
    rw [hfind]
  · have hnoeq : '=' ∉ ("https://m.blog.naver.com/".data ++ bid ++ '/' :: id) := by
      intro hm
      rcases List.mem_append.mp hm with hm1 | hm2
      · rcases List.mem_append.mp hm1 with hm0 | hmb
        · revert hm0; decide
        · exact hbid hmb
      · rcases List.mem_cons.mp hm2 with he | hid2
        · exact absurd he (by decide)
        · exact absurd (List.all_eq_true.mp hdig '=' hid2) (by decide)
    have h1 : findLogNo ("https://m.blog.naver.com/".data ++ bid ++ '/' :: id) = none :=
      findLogNo_no_eq _ hnoeq
    have h2 : findTrailing ("https://m.blog.naver.com/".data ++ bid ++ '/' :: id)
        = some id := by
      rw [List.append_assoc]
      rw [← List.append_assoc]
      exact findTrailing_append_slash _ id hdig hlen
    unfold canonical_key_from_url
    rw [h1]
    exact h2

theorem canonical_key_from_url_agrees_witness :
    canonical_key_from_url
        ("https://blog.naver.com/PostView.naver?blogId=abc&".data
          ++ (logNoLit ++ "123456".data ++ [])) = some "123456".data
    ∧ canonical_key_from_url
        ("https://m.blog.naver.com/".data ++ "abc".data ++ '/' :: "123456".data)
      = some "123456".data :=
  canonical_key_from_url_agrees
    ("https://blog.naver.com/PostView.naver?blogId=abc&".data) [] ("123456".data)
    ("abc".data) (by decide) (by decide) (by decide) (Or.inl rfl) (by decide) (by decide)

-- ===== C10: canonical output shape =====

theorem fmtYmd_length {y m d : Nat} (hy : y < 10000) (hm : m < 100) (hd : d < 100) :
    (fmtYmd y m d).length = 10 := by
  have h4 := (pad4_spec hy).2.1
  have h2 := (pad2_spec hm).2.1
  have h3 := (pad2_spec hd).2.1
  simp [fmtYmd, h4, h2, h3]

theorem fmt_if_valid_some {curr : Nat} {y mo d v : List Char}
    (h : fmt_if_valid curr y mo d = some v) : canonicalYmdOut curr v := by
  unfold fmt_if_valid at h
  by_cases hp :
      is_plausible_ymd curr (charsToNat y) (charsToNat mo) (charsToNat d) = true
  · rw [if_pos hp] at h
    obtain ⟨h1, h2, h3, h4, h5, h6⟩ := (is_plausible_ymd_iff _ _ _ _).mp hp
    refine ⟨charsToNat y, charsToNat mo, charsToNat d,
      (Option.some_inj.mp h).symm, h1, h2, h3, h4, h5, h6, ?_⟩
    intro hcurr
    rw [← Option.some_inj.mp h]
    exact fmtYmd_length (by omega) (by omega) (by omega)
  · rw [if_neg hp] at h
    cases h

theorem bind_fmt_some {curr : Nat} {o : Option (List Char × List Char × List Char)}
    {v : List Char}
    (h : o.bind (fun g => fmt_if_valid curr g.1 g.2.1 g.2.2) = some v) :
    canonicalYmdOut curr v := by
  rcases Option.bind_eq_some.mp h with ⟨g, _, hf⟩
  exact fmt_if_valid_some hf

/-- C10: whenever `normalize_date` or `parse_publish_text` returns a value,
that value is the zero-padded `YYYY-MM-DD` rendering of components inside the
plausibility bounds (year in [2005, curr+1], month in [1,12], day in [1,31]),
regardless of how the matched fragment was formatted; and both functions
return no match on empty input. -/
theorem date_parsers_canonical_output :
    (∀ curr text fy v, normalize_date curr text fy = some v → canonicalYmdOut curr v)
    ∧ (∀ curr txt fy v, parse_publish_text curr txt fy = some v → canonicalYmdOut curr v)
    ∧ (∀ curr fy, normalize_date curr [] fy = none)
    ∧ (∀ curr fy, parse_publish_text curr [] fy = none) := by
  refine ⟨?_, ?_, ?_, ?_⟩
  · intro curr text fy v h
    unfold normalize_date at h
    by_cases htext : text = []
    · rw [if_pos htext] at h; cases h
    · rw [if_neg htext] at h
      split at h
      · rename_i out heq
        rw [Option.some_inj.mp h] at heq
        exact bind_fmt_some heq
      · split at h
        · rename_i out heq
          rw [Option.some_inj.mp h] at heq
          exact bind_fmt_some heq
        · split at h
          · rename_i out heq
            rw [Option.some_inj.mp h] at heq
            exact bind_fmt_some heq
          · split at h
            · rename_i out heq
              rw [Option.some_inj.mp h] at heq
              exact bind_fmt_some heq
            · split at h
              · cases h
              · rename_i fy2
                by_cases hz : fy2 = 0
                · rw [if_pos hz] at h; cases h
                · rw [if_neg hz] at h
                  rcases Option.bind_eq_some.mp h with ⟨g, _, hf⟩
                  exact fmt_if_valid_some hf
  · intro curr txt fy v h
    unfold parse_publish_text at h
    by_cases htxt : txt = []
    · rw [if_pos htxt] at h; cases h
    · rw [if_neg htxt] at h
      split at h
      · exact fmt_if_valid_some h
      · split at h
        · exact fmt_if_valid_some h
        · cases h
  · intro curr fy; simp [normalize_date]
  · intro curr fy; simp [parse_publish_text]

theorem date_parsers_canonical_output_witness :
    canonicalYmdOut 2026 ("2025-09-07".data) ∧ canonicalYmdOut 2026 ("2025-08-31".data) :=
  ⟨date_parsers_canonical_output.1 2026 ("2025.09.07".data) none ("2025-09-07".data)
      (by decide),
   date_parsers_canonical_output.2.1 2026 ("2025. 8. 31. 23:00".data) 2024
      ("2025-08-31".data) (by decide)⟩

-- ===== C6: round trip =====

theorem exists_four_of_length {l : List Char} (h : l.length = 4) :
    ∃ a b c d, l = [a, b, c, d] := by
  cases l with
  | nil => simp at h
  | cons a l1 =>
    cases l1 with
    | nil => simp at h
    | cons b l2 =>
      cases l2 with
      | nil => simp at h
      | cons c l3 =>
        cases l3 with
        | nil => simp at h
        | cons d l4 =>
          cases l4 with
          | nil => exact ⟨a, b, c, d, rfl⟩
          | cons e l5 => simp at h

theorem exists_two_of_length {l : List Char} (h : l.length = 2) :
    ∃ a b, l = [a, b] := by
  cases l with
  | nil => simp at h
  | cons a l1 =>
    cases l1 with
    | nil => simp at h
    | cons b l2 =>
      cases l2 with
      | nil => exact ⟨a, b, rfl⟩
      | cons c l3 => simp at h

theorem matchP0At_padded {a b c d m1 m2 d1 d2 : Char}
    (ha : a.isDigit = true) (hb : b.isDigit = true) (hc : c.isDigit = true)
    (hd : d.isDigit = true) (hm1 : m1.isDigit = true) (hm2 : m2.isDigit = true)
    (hd1 : d1.isDigit = true) (hd2 : d2.isDigit = true) :
    matchP0At (a :: b :: c :: d :: '.' :: m1 :: m2 :: '.' :: d1 :: [d2])
      = some ([a, b, c, d], [m1, m2], [d1, d2]) := by
  simp [matchP0At, takeDigitsN, grab12, ha, hb, hc, hd, hm1, hm2, hd1, hd2, isSepChar]

theorem reSearch_head {α : Type} (tryAt : Option Char → List Char → Option α) (s : List Char)
    (g : α) (h : tryAt none s = some g) : reSearch tryAt s = some g := by
  cases s with
  | nil => simpa [reSearch, reSearchAux] using h
  | cons c r => simp [reSearch, reSearchAux, h]

/-- C6: for every year in [2005, currentYear+1] (with the current year small
enough that years stay four digits), month in [1,12] and day in [1,31],
formatting the triple as the zero-padded string `YYYY.MM.DD` and passing it to
`normalize_date` recovers exactly the zero-padded `YYYY-MM-DD` rendering of
the same triple, whatever the fallback year. -/
theorem normalize_date_round_trip (curr y m d : Nat) (fy : Option Nat)
    (hy1 : 2005 ≤ y) (hy2 : y ≤ curr + 1) (hcurr : curr ≤ 9998)
    (hm1 : 1 ≤ m) (hm2 : m ≤ 12) (hd1 : 1 ≤ d) (hd2 : d ≤ 31) :
    normalize_date curr (pad4 y ++ '.' :: pad2 m ++ '.' :: pad2 d) fy
      = some (fmtYmd y m d) := by
  have hy4 : y < 10000 := by omega
  obtain ⟨hyv, hylen, hydig⟩ := pad4_spec hy4
  obtain ⟨hmv, hmlen, hmdig⟩ := pad2_spec (show m < 100 by omega)
  obtain ⟨hdv, hdlen, hddig⟩ := pad2_spec (show d < 100 by omega)
  obtain ⟨a, b, c, e, habce⟩ := exists_four_of_length hylen
  obtain ⟨n1, n2, hn12⟩ := exists_two_of_length hmlen
  obtain ⟨e1, e2, he12⟩ := exists_two_of_length hdlen
  rw [habce] at hyv hydig
  rw [hn12] at hmv hmdig
  rw [he12] at hdv hddig
  rw [habce, hn12, he12]
  have hmatch : matchP0At (a :: b :: c :: e :: '.' :: n1 :: n2 :: '.' :: e1 :: [e2])
      = some ([a, b, c, e], [n1, n2], [e1, e2]) :=
    matchP0At_padded (hydig a (by simp)) (hydig b (by simp)) (hydig c (by simp))
      (hydig e (by simp)) (hmdig n1 (by simp)) (hmdig n2 (by simp))
      (hddig e1 (by simp)) (hddig e2 (by simp))
  have hinput : ([a, b, c, e] : List Char) ++ '.' :: [n1, n2] ++ '.' :: [e1, e2]
      = a :: b :: c :: e :: '.' :: n1 :: n2 :: '.' :: e1 :: [e2] := by
    simp
  rw [hinput]
  have hscan : reSearch (fun _ s => matchP0At s)
      (a :: b :: c :: e :: '.' :: n1 :: n2 :: '.' :: e1 :: [e2])
      = some ([a, b, c, e], [n1, n2], [e1, e2]) :=
    reSearch_head _ _ _ hmatch
  have hplaus : is_plausible_ymd curr y m d = true :=
    (is_plausible_ymd_iff curr y m d).mpr ⟨hy1, hy2, hm1, hm2, hd1, hd2⟩
  have hfmt : fmt_if_valid curr [a, b, c, e] [n1, n2] [e1, e2] = some (fmtYmd y m d) := by
    unfold fmt_if_valid
    rw [hyv, hmv, hdv, if_pos hplaus]
  unfold normalize_date
  rw [if_neg (by simp), hscan]
  simp [Option.bind, hfmt]

theorem normalize_date_round_trip_witness :
    normalize_date 2026 (pad4 2025 ++ '.' :: pad2 9 ++ '.' :: pad2 7) none
      = some (fmtYmd 2025 9 7) :=
  normalize_date_round_trip 2026 2025 9 7 none (by norm_num) (by norm_num) (by norm_num)
    (by norm_num) (by norm_num) (by norm_num) (by norm_num)

-- ===== C3: ledger round trip =====

theorem dropWhile_append_cons (p : Char → Bool) (l1 : List Char) (c : Char) (t : List Char)
    (hc : p c = false) : (l1 ++ c :: t).dropWhile p = l1.dropWhile p ++ c :: t := by
  induction l1 with
  | nil => simp [List.dropWhile_cons, hc]
  | cons a l ih =>
    by_cases hpa : p a = true
    · simp [List.dropWhile_cons, hpa, ih]
    · simp [List.dropWhile_cons, hpa]

theorem dropWhile_eq_self_of_all (p : Char → Bool) (l : List Char)
    (h : ∀ c ∈ l, p c = false) : l.dropWhile p = l := by
  cases l with
  | nil => rfl
  | cons a t => simp [List.dropWhile_cons, h a (by simp)]

theorem splitLinesAux_append_nl : ∀ (l acc rest : List Char), (∀ c ∈ l, c ≠ '\n') →
    splitLinesAux (l ++ '\n' :: rest) acc = (acc.reverse ++ l) :: splitLinesAux rest [] := by
  intro l
  induction l with
  | nil => intro acc rest _; simp [splitLinesAux]
  | cons c t ih =>
    intro acc rest h
    have hc : ¬ c = '\n' := h c (by simp)
    have hstep : splitLinesAux ((c :: t) ++ '\n' :: rest) acc
        = splitLinesAux (t ++ '\n' :: rest) (c :: acc) := by
      simp [splitLinesAux, hc]
    rw [hstep, ih (c :: acc) rest (fun x hx => h x (by simp [hx]))]
    simp

theorem splitLinesAux_append (f : List Char) :
    ∀ (g acc : List Char), f.getLast? = some '\n' →
    splitLinesAux (f ++ g) acc = splitLinesAux f acc ++ splitLinesAux g [] := by
  induction f with
  | nil => intro g acc hf; simp at hf
  | cons c t ih =>
    intro g acc hf
    cases t with
    | nil =>
      have hc : c = '\n' := by simpa using hf
      subst hc
      simp [splitLinesAux]
    | cons c2 t2 =>
      have hf2 : (c2 :: t2).getLast? = some '\n' := by
        rwa [List.getLast?_cons_cons] at hf
      by_cases hc : c = '\n'
      · subst hc
        have hstep : splitLinesAux (('\n' :: c2 :: t2) ++ g) acc
            = acc.reverse :: splitLinesAux ((c2 :: t2) ++ g) [] := by
          simp [splitLinesAux]
        have hstep2 : splitLinesAux ('\n' :: c2 :: t2) acc
            = acc.reverse :: splitLinesAux (c2 :: t2) [] := by
          simp [splitLinesAux]
        rw [hstep, hstep2, ih g [] hf2]
        simp
      · have hstep : splitLinesAux ((c :: c2 :: t2) ++ g) acc
            = splitLinesAux ((c2 :: t2) ++ g) (c :: acc) := by
          simp [splitLinesAux, hc]
        have hstep2 : splitLinesAux (c :: c2 :: t2) acc
            = splitLinesAux (c2 :: t2) (c :: acc) := by
          simp [splitLinesAux, hc]
        rw [hstep, hstep2, ih g (c :: acc) hf2]

theorem splitLines_append_line (f line : List Char)
    (hf : f = [] ∨ f.getLast? = some '\n') (hl : ∀ c ∈ line, c ≠ '\n') :
    splitLines (f ++ (line ++ ['\n'])) = splitLines f ++ [line] := by
  have hone : splitLinesAux (line ++ ['\n']) [] = [line] := by
    rw [show (line ++ ['\n'] : List Char) = line ++ '\n' :: [] by simp]
    rw [splitLinesAux_append_nl line [] [] hl]
    simp [splitLinesAux]
  rcases hf with rfl | hf
  · simpa [splitLines] using hone
  · rw [splitLines, splitLinesAux_append f _ [] hf, hone]
    rfl

theorem append_index_row_eq (file : List Char) (r : IndexRow) :
    append_index_row file r.key r.date r.title r.fname r.url
      = file ++ (rowLine r ++ ['\n']) := by
  simp [append_index_row, rowLine]

theorem getLast?_append_nl (f l : List Char) : (f ++ (l ++ ['\n'])).getLast? = some '\n' := by
  rw [← List.append_assoc]
  exact List.getLast?_concat _

theorem okFieldChar_ne_nl {c : Char} (h : okFieldChar c = true) : c ≠ '\n' := by
  intro he
  subst he
  exact absurd h (by decide)

theorem okFieldChar_ne_tab {c : Char} (h : okFieldChar c = true) : c ≠ '\t' := by
  intro he
  subst he
  exact absurd h (by decide)

theorem okField_ne_nl {f : List Char} (h : okField f = true) : ∀ c ∈ f, c ≠ '\n' :=
  fun c hc => okFieldChar_ne_nl (List.all_eq_true.mp h c hc)

theorem okRow_parts {r : IndexRow} (h : okRow r = true) :
    r.key ≠ [] ∧ r.key.all Char.isDigit = true ∧ okField r.date = true ∧
      okField r.title = true ∧ okField r.fname = true ∧ okField r.url = true := by
  simp only [okRow, Bool.and_eq_true] at h
  obtain ⟨⟨⟨⟨⟨hk0, hk1⟩, hd⟩, ht⟩, hf⟩, hu⟩ := h
  refine ⟨?_, hk1, hd, ht, hf, hu⟩
  intro he
  rw [he] at hk0
  exact absurd hk0 (by decide)

theorem rowLine_no_nl {r : IndexRow} (h : okRow r = true) : ∀ c ∈ rowLine r, c ≠ '\n' := by
  obtain ⟨hk0, hk1, hd, ht, hf, hu⟩ := okRow_parts h
  intro c hc
  simp only [rowLine, List.mem_append, List.mem_cons] at hc
  rcases hc with hc | rfl | hc | rfl | hc | rfl | hc | rfl | hc
  · exact isDigit_ne (List.all_eq_true.mp hk1 c hc) (by decide)
  · decide
  · exact okField_ne_nl hd c hc
  · decide
  · exact okField_ne_nl ht c hc
  · decide
  · exact okField_ne_nl hf c hc
  · decide
  · exact okField_ne_nl hu c hc

theorem splitLines_appendRows :
    ∀ (rows : List IndexRow) (file : List Char),
      (file = [] ∨ file.getLast? = some '\n') →
      (∀ r ∈ rows, okRow r = true) →
      splitLines (appendRows file rows) = splitLines file ++ rows.map rowLine := by
  intro rows
  induction rows with
  | nil => intro file _ _; simp [appendRows]
  | cons r rs ih =>
    intro file hf hok
    have hr : okRow r = true := hok r (by simp)
    have step : appendRows file (r :: rs) = appendRows (file ++ (rowLine r ++ ['\n'])) rs := by
      simp [appendRows, append_index_row_eq]
    rw [step, ih _ (Or.inr (getLast?_append_nl _ _)) (fun x hx => hok x (by simp [hx]))]
    rw [splitLines_append_line file (rowLine r) hf (rowLine_no_nl hr)]
    simp

theorem dropWhile_concat_tab (p : Char → Bool) :
    ∀ l : List Char, List.dropWhile p (l ++ ['\t']) = []
      ∨ ∃ m, List.dropWhile p (l ++ ['\t']) = m ++ ['\t'] := by
  intro l
  induction l with
  | nil =>
    by_cases hp : p '\t' = true
    · left; simp [List.dropWhile_cons, hp]
    · right; exact ⟨[], by simp [List.dropWhile_cons, hp]⟩
  | cons a t ih =>
    by_cases hp : p a = true
    · simpa [List.dropWhile_cons, hp] using ih
    · right; exact ⟨a :: t, by simp [List.dropWhile_cons, hp]⟩

theorem pyStrip_key_tail {key tail : List Char}
    (hk0 : key ≠ []) (hk1 : key.all Char.isDigit = true) :
    ∃ T, pyStrip (key ++ tail) = key ++ T
      ∧ T = (List.dropWhile pyIsSpace tail.reverse).reverse := by
  refine ⟨(List.dropWhile pyIsSpace tail.reverse).reverse, ?_, rfl⟩
  unfold pyStrip
  have h1 : List.dropWhile pyIsSpace (key ++ tail) = key ++ tail := by
    cases key with
    | nil => exact absurd rfl hk0
    | cons k0 kr =>
      have : k0.isDigit = true := List.all_eq_true.mp hk1 k0 (by simp)
      simp [List.dropWhile_cons, isDigit_not_space this]
  rw [h1, List.reverse_append]
  obtain ⟨kl, krest, hkr, hkld⟩ :
      ∃ kl krest, key.reverse = kl :: krest ∧ kl.isDigit = true := by
    cases hkr : key.reverse with
    | nil => exact absurd (List.reverse_eq_nil_iff.mp hkr) hk0
    | cons kl krest =>
      refine ⟨kl, krest, rfl, ?_⟩
      have : kl ∈ key.reverse := by rw [hkr]; simp
      exact List.all_eq_true.mp hk1 kl (List.mem_reverse.mp this)
  rw [hkr, dropWhile_append_cons _ _ _ _ (isDigit_not_space hkld), ← hkr]
  rw [List.reverse_append, List.reverse_reverse]

theorem splitOnTabAux_key : ∀ (key T acc : List Char),
    (∀ c ∈ key, c ≠ '\t') → (T = [] ∨ ∃ m, T = '\t' :: m) →
    ∃ rest, splitOnTabAux (key ++ T) acc = (acc.reverse ++ key) :: rest := by
  intro key
  induction key with
  | nil =>
    intro T acc _ hT
    rcases hT with rfl | ⟨m, rfl⟩
    · exact ⟨[], by simp [splitOnTabAux]⟩
    · exact ⟨splitOnTabAux m [], by simp [splitOnTabAux]⟩
  | cons a k ih =>
    intro T acc h hT
    have ha : ¬ a = '\t' := h a (by simp)
    have hstep : splitOnTabAux ((a :: k) ++ T) acc = splitOnTabAux (k ++ T) (a :: acc) := by
      simp [splitOnTabAux, ha]
    obtain ⟨rest, hrest⟩ := ih T (a :: acc) (fun c hc => h c (by simp [hc])) hT
    refine ⟨rest, ?_⟩
    rw [hstep, hrest]
    simp

theorem pyStrip_all_digit {k : List Char} (h : k.all Char.isDigit = true) : pyStrip k = k := by
  unfold pyStrip
  rw [dropWhile_eq_self_of_all _ _ (fun c hc => isDigit_not_space (List.all_eq_true.mp h c hc))]
  rw [dropWhile_eq_self_of_all _ _ (fun c hc =>
    isDigit_not_space (List.all_eq_true.mp h c (List.mem_reverse.mp hc)))]
  exact List.reverse_reverse k

theorem processIndexLine_digit_line (keys : List (List Char)) (ln key T : List Char)
    (hk0 : key ≠ []) (hk1 : key.all Char.isDigit = true)
    (hstrip : pyStrip ln = key ++ T)
    (hT : T = [] ∨ ∃ m, T = '\t' :: m) :
    processIndexLine keys ln = insertKey keys key := by
  obtain ⟨rest, hsplit⟩ := splitOnTabAux_key key T []
      (fun c hc => isDigit_ne (List.all_eq_true.mp hk1 c hc) (by decide)) hT
  cases key with
  | nil => exact absurd rfl hk0
  | cons k0 kr =>
    have hk0d : k0.isDigit = true := List.all_eq_true.mp hk1 k0 (by simp)
    have hneq : ¬ k0 = '#' := isDigit_ne hk0d (by decide)
    have hdig : isPyDigitStr (k0 :: kr) = true := by
      simp [isPyDigitStr, hk1]
    rw [List.cons_append] at hsplit
    simp only [processIndexLine, hstrip, List.cons_append]
    simp [splitOnTab, hsplit, hneq, hdig, pyStrip_all_digit hk1]

theorem processIndexLine_rowLine (keys : List (List Char)) (r : IndexRow)
    (h : okRow r = true) :
    processIndexLine keys (rowLine r) = insertKey keys r.key := by
  obtain ⟨hk0, hk1, _, _, _, _⟩ := okRow_parts h
  obtain ⟨T, hstrip, hTdef⟩ :=
    @pyStrip_key_tail r.key
      ('\t' :: (r.date ++ ('\t' :: (r.title ++ ('\t' :: (r.fname ++ ('\t' :: r.url)))))))
      hk0 hk1
  have hT : T = [] ∨ ∃ m, T = '\t' :: m := by
    rw [hTdef, List.reverse_cons]
    rcases dropWhile_concat_tab pyIsSpace
        ((r.date ++ ('\t' :: (r.title ++ ('\t' :: (r.fname ++ ('\t' :: r.url)))))).reverse) with
        h0 | ⟨m, hm⟩
    · left; rw [h0]; rfl
    · right; exact ⟨m.reverse, by rw [hm]; simp⟩
  exact processIndexLine_digit_line keys (rowLine r) r.key T hk0 hk1 hstrip hT

theorem processIndexLine_ignorable (keys : List (List Char)) (ln : List Char)
    (h : isIgnorableLine ln = true) :
    processIndexLine keys ln = keys := by
  unfold isIgnorableLine at h
  cases hl : pyStrip ln with
  | nil => simp [processIndexLine, hl]
  | cons c t =>
    rw [hl] at h
    simp only [decide_eq_true_eq] at h
    simp [processIndexLine, hl, h]

theorem mem_insertKey {keys : List (List Char)} {k x : List Char} :
    x ∈ insertKey keys k ↔ x ∈ keys ∨ x = k := by
  unfold insertKey
  by_cases h : k ∈ keys
  · simp only [if_pos h]
    constructor
    · exact Or.inl
    · rintro (hx | rfl)
      · exact hx
      · exact h
  · simp [if_neg h]

theorem foldl_ignorable (L : List (List Char)) :
    ∀ keys, (∀ ln ∈ L, isIgnorableLine ln = true) →
      List.foldl processIndexLine keys L = keys := by
  induction L with
  | nil => intro keys _; rfl
  | cons ln L2 ih =>
    intro keys h
    rw [List.foldl_cons, processIndexLine_ignorable keys ln (h ln (by simp))]
    exact ih keys (fun x hx => h x (by simp [hx]))

theorem foldl_rows (rows : List IndexRow) :
    ∀ keys, (∀ r ∈ rows, okRow r = true) →
      ∀ k, k ∈ List.foldl processIndexLine keys (rows.map rowLine)
        ↔ k ∈ keys ∨ k ∈ rows.map IndexRow.key := by
  induction rows with
  | nil => intro keys _ k; simp
  | cons r rs ih =>
    intro keys h k
    rw [List.map_cons, List.foldl_cons, processIndexLine_rowLine keys r (h r (by simp))]
    rw [ih (insertKey keys r.key) (fun x hx => h x (by simp [hx])) k]
    rw [mem_insertKey]
    simp
    tauto

/-- C3: ledger round trip.  Starting from a base file that ends in a newline
(or is empty), contains `'\n'` as its only line-break character and consists
solely of blank and `#`-comment lines, appending any sequence of rows whose
keys are non-empty all-digit strings and whose other fields are free of tab
and line-break characters, and then loading the resulting file, yields
exactly the set of appended keys: ignorable lines are skipped and each
appended key is recovered verbatim by the load-time digit test. -/
theorem ledger_round_trip (base : List Char) (rows : List IndexRow)
    (hb1 : base = [] ∨ base.getLast? = some '\n')
    (hb2 : okNlText base = true)
    (hb3 : ∀ ln ∈ splitLines base, isIgnorableLine ln = true)
    (hrows : ∀ r ∈ rows, okRow r = true) :
    ∀ k, k ∈ load_done_keys_from_index (appendRows base rows)
      ↔ k ∈ rows.map IndexRow.key := by
  intro k
  unfold load_done_keys_from_index
  rw [splitLines_appendRows rows base hb1 hrows, List.foldl_append,
    foldl_ignorable (splitLines base) [] hb3, foldl_rows rows [] hrows k]
  simp

theorem ledger_round_trip_witness :
    ("12345678".data ∈ load_done_keys_from_index
        (appendRows "# done\n\n".data
          [⟨"12345678".data, "2024-01-02".data, "a title".data, "f.pdf".data,
            "https://u".data⟩,
           ⟨"999".data, "d".data, "t2".data, "g.pdf".data, "u2".data⟩])
      ↔ "12345678".data ∈
          [⟨"12345678".data, "2024-01-02".data, "a title".data, "f.pdf".data,
            "https://u".data⟩,
           (⟨"999".data, "d".data, "t2".data, "g.pdf".data,
            "u2".data⟩ : IndexRow)].map IndexRow.key) :=
  ledger_round_trip "# done\n\n".data
    [⟨"12345678".data, "2024-01-02".data, "a title".data, "f.pdf".data, "https://u".data⟩,
     ⟨"999".data, "d".data, "t2".data, "g.pdf".data, "u2".data⟩]
    (Or.inr (by decide)) (by decide) (by decide) (by decide) ("12345678".data)

-- ===== C2: second-run idempotence =====

theorem all_takeWhile (p : Char → Bool) : ∀ l : List Char, (l.takeWhile p).all p = true := by
  intro l
  induction l with
  | nil => rfl
  | cons a t ih => by_cases h : p a = true <;> simp [List.takeWhile_cons, h, ih]

theorem findLogNo_digits : ∀ (u k : List Char), findLogNo u = some k →
    k ≠ [] ∧ k.all Char.isDigit = true := by
  intro u
  induction u with
  | nil => intro k h; cases h
  | cons c r ih =>
    intro k h
    by_cases hat : isLogNoAt (c :: r) = true
    · have hv : findLogNo (c :: r) = some (((c :: r).drop 6).takeWhile Char.isDigit) := by
        simp [findLogNo, hat]
      rw [hv] at h
      obtain rfl := Option.some_inj.mp h
      refine ⟨?_, all_takeWhile _ _⟩
      simp only [isLogNoAt, Bool.and_eq_true] at hat
      obtain ⟨_, hd⟩ := hat
      cases hdrop : (c :: r).drop 6 with
      | nil => rw [hdrop] at hd; simp at hd
      | cons d rest =>
        have hd2 : d.isDigit = true := by
          rw [hdrop] at hd
          simpa using hd
        simp [List.takeWhile_cons, hd2]
    · have hv : findLogNo (c :: r) = findLogNo r := by simp [findLogNo, hat]
      rw [hv] at h
      exact ih k h

theorem findTrailing_digits : ∀ (u k : List Char), findTrailing u = some k →
    k ≠ [] ∧ k.all Char.isDigit = true := by
  intro u
  induction u with
  | nil => intro k h; cases h
  | cons c r ih =>
    intro k h
    cases hts : trySlashAt (c :: r) with
    | some k2 =>
      have hv : findTrailing (c :: r) = some k2 := by simp [findTrailing, hts]
      rw [hv] at h
      obtain rfl := Option.some_inj.mp h
      simp only [trySlashAt] at hts
      by_cases hcond : c = '/' ∧ r.all Char.isDigit = true ∧ 6 ≤ r.length
      · rw [if_pos hcond] at hts
        obtain rfl := Option.some_inj.mp hts
        refine ⟨?_, hcond.2.1⟩
        intro he
        rw [he] at hcond
        simp at hcond
      · rw [if_neg hcond] at hts
        cases hts
    | none =>
      have hv : findTrailing (c :: r) = findTrailing r := by simp [findTrailing, hts]
      rw [hv] at h
      exact ih k h

theorem canonical_key_digits {u k : List Char} (h : canonical_key_from_url u = some k) :
    k ≠ [] ∧ k.all Char.isDigit = true := by
  unfold canonical_key_from_url at h
  cases hf : findLogNo u with
  | some k2 =>
    rw [hf] at h
    obtain rfl := Option.some_inj.mp h
    exact findLogNo_digits u k2 hf
  | none =>
    rw [hf] at h
    exact findTrailing_digits u k h

theorem dedup_sublist : ∀ (l seen : List (List Char)) (u : List Char),
    u ∈ dedupByKeyAux seen l → u ∈ l := by
  intro l
  induction l with
  | nil => intro seen u h; cases h
  | cons v l2 ih =>
    intro seen u h
    by_cases hv : keyOrUrl v ∈ seen
    · simp only [dedupByKeyAux, if_pos hv] at h
      exact List.mem_cons_of_mem _ (ih seen u h)
    · simp only [dedupByKeyAux, if_neg hv] at h
      rcases List.mem_cons.mp h with rfl | h2
      · simp
      · exact List.mem_cons_of_mem _ (ih _ u h2)

theorem dedup_cover : ∀ (l seen : List (List Char)) (u : List Char), u ∈ l →
    keyOrUrl u ∈ seen ∨ ∃ v ∈ dedupByKeyAux seen l, keyOrUrl v = keyOrUrl u := by
  intro l
  induction l with
  | nil => intro seen u h; cases h
  | cons w l2 ih =>
    intro seen u h
    by_cases hw : keyOrUrl w ∈ seen
    · simp only [dedupByKeyAux, if_pos hw]
      rcases List.mem_cons.mp h with rfl | h2
      · exact Or.inl hw
      · exact ih seen u h2
    · simp only [dedupByKeyAux, if_neg hw]
      rcases List.mem_cons.mp h with rfl | h2
      · exact Or.inr ⟨u, by simp, rfl⟩
      · rcases ih (keyOrUrl w :: seen) u h2 with hs | ⟨v, hv1, hv2⟩
        · rcases List.mem_cons.mp hs with heq | hs2
          · exact Or.inr ⟨w, by simp, heq.symm⟩
          · exact Or.inl hs2
        · exact Or.inr ⟨v, by simp [hv1], hv2⟩

theorem processUrlF_step_done (render : List Char → Option (List Char × List Char × List Char))
    (st : RunSt) (u f tt dn k : List Char)
    (hr : render u = some (f, tt, dn)) (hk : canonical_key_from_url u = some k)
    (hkd : k ≠ []) (hmem : k ∈ st.done) :
    processUrlF render st u = { st with saved := st.saved + 1 } := by
  simp [processUrlF, hr, hk, hkd, hmem]

theorem processUrlF_step_new (render : List Char → Option (List Char × List Char × List Char))
    (st : RunSt) (u f tt dn k : List Char)
    (hr : render u = some (f, tt, dn)) (hk : canonical_key_from_url u = some k)
    (hkd : k ≠ []) (hmem : k ∉ st.done) :
    processUrlF render st u =
      { file := append_index_row st.file k dn tt f u,
        done := st.done ++ [k], saved := st.saved + 1 } := by
  simp [processUrlF, hr, hk, hkd, hmem]

theorem runFold (render : List Char → Option (List Char × List Char × List Char)) :
    ∀ (L : List (List Char)) (st0 : RunSt),
      (∀ u ∈ L, okField u = true) →
      (∀ u ∈ L, ∃ k, canonical_key_from_url u = some k) →
      (∀ u ∈ L, ∃ t, render u = some t ∧ okRenderOut t = true) →
      ∃ rows : List IndexRow,
        (∀ r ∈ rows, okRow r = true)
        ∧ (L.foldl (processUrlF render) st0).file = appendRows st0.file rows
        ∧ (∀ x, x ∈ (L.foldl (processUrlF render) st0).done ↔
            x ∈ st0.done ∨ x ∈ rows.map IndexRow.key)
        ∧ (∀ u ∈ L, ∀ k, canonical_key_from_url u = some k →
            k ∈ (L.foldl (processUrlF render) st0).done) := by
  intro L
  induction L with
  | nil =>
    intro st0 _ _ _
    refine ⟨[], by simp, by simp [appendRows], by simp, ?_⟩
    intro u hu
    cases hu
  | cons u L2 ih =>
    intro st0 hok hkeys hrender
    obtain ⟨k, hk⟩ := hkeys u (by simp)
    obtain ⟨⟨f, tt, dn⟩, hr, hro⟩ := hrender u (by simp)
    obtain ⟨hkne, hkdig⟩ := canonical_key_digits hk
    have hfold : (u :: L2).foldl (processUrlF render) st0
        = L2.foldl (processUrlF render) (processUrlF render st0 u) := rfl
    by_cases hmem : k ∈ st0.done
    · have hstep := processUrlF_step_done render st0 u f tt dn k hr hk hkne hmem
      obtain ⟨rows, hrows, hfile, hdone, hproc⟩ :=
        ih { st0 with saved := st0.saved + 1 }
          (fun v hv => hok v (by simp [hv]))
          (fun v hv => hkeys v (by simp [hv]))
          (fun v hv => hrender v (by simp [hv]))
      refine ⟨rows, hrows, ?_, ?_, ?_⟩
      · rw [hfold, hstep]
        exact hfile
      · intro x
        rw [hfold, hstep]
        exact hdone x
      · intro v hv kv hkv
        rcases List.mem_cons.mp hv with rfl | hv2
        · rw [hk] at hkv
          obtain rfl := Option.some_inj.mp hkv
          rw [hfold, hstep]
          exact (hdone _).mpr (Or.inl hmem)
        · rw [hfold, hstep]
          exact hproc v hv2 kv hkv
    · have hstep := processUrlF_step_new render st0 u f tt dn k hr hk hkne hmem
      obtain ⟨rows, hrows, hfile, hdone, hproc⟩ :=
        ih { file := append_index_row st0.file k dn tt f u,
             done := st0.done ++ [k], saved := st0.saved + 1 }
          (fun v hv => hok v (by simp [hv]))
          (fun v hv => hkeys v (by simp [hv]))
          (fun v hv => hrender v (by simp [hv]))
      have hr0ok : okRow ⟨k, dn, tt, f, u⟩ = true := by
        simp only [okRenderOut, Bool.and_eq_true] at hro
        have hkie : k.isEmpty = false := by
          cases k with
          | nil => exact absurd rfl hkne
          | cons a b => rfl
        simp [okRow, hkie, hkdig, hro.1.1, hro.1.2, hro.2, hok u (by simp)]
      refine ⟨⟨k, dn, tt, f, u⟩ :: rows, ?_, ?_, ?_, ?_⟩
      · intro r hr2
        rcases List.mem_cons.mp hr2 with rfl | hr3
        · exact hr0ok
        · exact hrows r hr3
      · rw [hfold, hstep]
        rw [hfile]
        rfl
      · intro x
        rw [hfold, hstep, hdone x]
        simp only [List.mem_append, List.mem_singleton, List.map_cons, List.mem_cons]
        tauto
      · intro v hv kv hkv
        rcases List.mem_cons.mp hv with rfl | hv2
        · rw [hk] at hkv
          obtain rfl := Option.some_inj.mp hkv
          rw [hfold, hstep]
          refine (hdone _).mpr (Or.inl ?_)
          simp
        · rw [hfold, hstep]
          exact hproc v hv2 kv hkv

theorem load_appendRows (f : List Char) (rows : List IndexRow)
    (hf : f = [] ∨ f.getLast? = some '\n') (hrows : ∀ r ∈ rows, okRow r = true) :
    ∀ x, x ∈ load_done_keys_from_index (appendRows f rows)
      ↔ x ∈ load_done_keys_from_index f ∨ x ∈ rows.map IndexRow.key := by
  intro x
  unfold load_done_keys_from_index
  rw [splitLines_appendRows rows f hf hrows, List.foldl_append]
  exact foldl_rows rows _ hrows x

/-- C2: running the URL-file orchestration a second time over the same URL
list, with the ledger file persisted from the first run, processes zero posts
(the filtered URL list of the second run is empty: every URL's canonical key
is already in the loaded done-key set) and appends zero new ledger rows (the
file is returned unchanged, with a save counter of zero).  Hypotheses: every
URL carries a canonical key (a key-less URL is by design never deduplicated),
URLs are free of tab/line-break characters, the initial ledger file is empty
or newline-terminated, and the first run's renderer succeeded on every URL
with row fields legal for the ledger. -/
theorem second_run_is_noop
    (render1 render2 : List Char → Option (List Char × List Char × List Char))
    (file0 : List Char) (urls : List (List Char))
    (hkeys : ∀ u ∈ urls, ∃ k, canonical_key_from_url u = some k)
    (hurlok : ∀ u ∈ urls, okField u = true)
    (hfile0 : file0 = [] ∨ file0.getLast? = some '\n')
    (hrender : ∀ u ∈ urls, ∃ t, render1 u = some t ∧ okRenderOut t = true) :
    mainUrlsMode render2 (mainUrlsMode render1 file0 urls).1.file urls
      = (⟨(mainUrlsMode render1 file0 urls).1.file,
          load_done_keys_from_index (mainUrlsMode render1 file0 urls).1.file, 0⟩, []) := by
  have hL1sub : ∀ u ∈ (dedupByKeyAux [] urls).filter
      (notDoneFilter (load_done_keys_from_index file0)), u ∈ urls := by
    intro u hu
    exact dedup_sublist urls [] u (List.mem_filter.mp hu).1
  obtain ⟨rows, hrows, hfile, hdone, hproc⟩ :=
    runFold render1
      ((dedupByKeyAux [] urls).filter (notDoneFilter (load_done_keys_from_index file0)))
      ⟨file0, load_done_keys_from_index file0, 0⟩
      (fun u hu => hurlok u (hL1sub u hu))
      (fun u hu => hkeys u (hL1sub u hu))
      (fun u hu => hrender u (hL1sub u hu))
  have hm1 : (mainUrlsMode render1 file0 urls).1
      = ((dedupByKeyAux [] urls).filter
          (notDoneFilter (load_done_keys_from_index file0))).foldl (processUrlF render1)
          ⟨file0, load_done_keys_from_index file0, 0⟩ := rfl
  rw [hm1]
  set st1 := ((dedupByKeyAux [] urls).filter
      (notDoneFilter (load_done_keys_from_index file0))).foldl (processUrlF render1)
      ⟨file0, load_done_keys_from_index file0, 0⟩ with hst1
  have hld : ∀ x, x ∈ load_done_keys_from_index st1.file
      ↔ x ∈ load_done_keys_from_index file0 ∨ x ∈ rows.map IndexRow.key := by
    intro x
    rw [hfile]
    exact load_appendRows file0 rows hfile0 hrows x
  have hcover : ∀ u ∈ urls, ∀ k, canonical_key_from_url u = some k →
      k ∈ load_done_keys_from_index st1.file := by
    intro u hu k hk
    rcases dedup_cover urls [] u hu with hs | ⟨v, hv, hkey⟩
    · cases hs
    · obtain ⟨kv, hkv⟩ := hkeys v (dedup_sublist urls [] v hv)
      have hku : keyOrUrl u = k := by simp [keyOrUrl, hk]
      have hkveq : kv = k := by
        have h1 : keyOrUrl v = kv := by simp [keyOrUrl, hkv]
        rw [← h1, hkey, hku]
      by_cases hvL1 : v ∈ (dedupByKeyAux [] urls).filter
          (notDoneFilter (load_done_keys_from_index file0))
      · have hkd := hproc v hvL1 kv hkv
        rcases (hdone kv).mp hkd with h0 | hrk
        · exact (hld k).mpr (Or.inl (hkveq ▸ h0))
        · exact (hld k).mpr (Or.inr (hkveq ▸ hrk))
      · have hnot : notDoneFilter (load_done_keys_from_index file0) v = false := by
          cases hb : notDoneFilter (load_done_keys_from_index file0) v
          · rfl
          · exact absurd (List.mem_filter.mpr ⟨hv, hb⟩) hvL1
        have hkvin : kv ∈ load_done_keys_from_index file0 := by
          by_cases hkvd : kv ∈ load_done_keys_from_index file0
          · exact hkvd
          · rw [notDoneFilter, hkv] at hnot
            simp [hkvd] at hnot
        exact (hld k).mpr (Or.inl (hkveq ▸ hkvin))
  have hL2 : (dedupByKeyAux [] urls).filter
      (notDoneFilter (load_done_keys_from_index st1.file)) = [] := by
    rw [List.filter_eq_nil]
    intro u hu
    obtain ⟨k, hk⟩ := hkeys u (dedup_sublist urls [] u hu)
    have hmem := hcover u (dedup_sublist urls [] u hu) k hk
    simp [notDoneFilter, hk, hmem]
  show mainUrlsMode render2 st1.file urls = _
  simp only [mainUrlsMode]
  rw [hL2]
  rfl

theorem second_run_is_noop_witness :
    mainUrlsMode (fun _ => none)
        (mainUrlsMode (fun _ => some ("f.pdf".data, "t".data, "2024-01-02".data)) []
          ["https://blog.naver.com/PostView.naver?blogId=a&logNo=111111".data,
           "https://m.blog.naver.com/a/222222".data]).1.file
        ["https://blog.naver.com/PostView.naver?blogId=a&logNo=111111".data,
         "https://m.blog.naver.com/a/222222".data]
      = (⟨(mainUrlsMode (fun _ => some ("f.pdf".data, "t".data, "2024-01-02".data)) []
            ["https://blog.naver.com/PostView.naver?blogId=a&logNo=111111".data,
             "https://m.blog.naver.com/a/222222".data]).1.file,
          load_done_keys_from_index
            (mainUrlsMode (fun _ => some ("f.pdf".data, "t".data, "2024-01-02".data)) []
              ["https://blog.naver.com/PostView.naver?blogId=a&logNo=111111".data,
               "https://m.blog.naver.com/a/222222".data]).1.file, 0⟩, []) :=
  second_run_is_noop (fun _ => some ("f.pdf".data, "t".data, "2024-01-02".data))
    (fun _ => none) []
    ["https://blog.naver.com/PostView.naver?blogId=a&logNo=111111".data,
     "https://m.blog.naver.com/a/222222".data]
    (by
      intro u hu
      simp only [List.mem_cons, List.not_mem_nil, or_false] at hu
      rcases hu with rfl | rfl
      · exact ⟨"111111".data, by decide⟩
      · exact ⟨"222222".data, by decide⟩)
    (by
      intro u hu
      simp only [List.mem_cons, List.not_mem_nil, or_false] at hu
      rcases hu with rfl | rfl <;> decide)
    (Or.inl rfl)
    (fun u _ => ⟨("f.pdf".data, "t".data, "2024-01-02".data), rfl, by decide⟩)
